import Mathlib

/-!
Shallow embedding of the KipSQL core slice: the `KipTransaction` storage layer
(src/storage/kip.rs), the binder dispatch (src/binder/mod.rs) and the physical
plan builder (src/execution_v1/physical_plan/physical_plan_builder.rs).

The MVCC key-value substrate is modelled as an association list from byte keys
to optional values: a `some` value is a live entry, a `none` value is a
tombstone left by `remove` (the underlying iterator yields tombstoned keys with
an absent value, which is what `drop_table` and the scans observe).  Byte keys
are lists of naturals ordered lexicographically.

The table codec (src/storage/table_codec.rs) and the catalog constructors
(src/catalog) are not part of the source slice; they are modelled from the
specification's description of the five key families, the order-preserving
encodings, and the catalog invariants.  Each such definition carries a
doc comment starting with "Modelled from the spec".
-/

/-! ## Byte strings and their lexicographic order -/

/-- Keys of the flat keyspace: byte sequences, modelled as lists of naturals. -/
abbrev Bytes := List Nat

/-- Lexicographic (non-strict) comparison of byte strings. -/
def bytesLe : Bytes → Bytes → Bool
  | [], _ => true
  | _ :: _, [] => false
  | a :: as, b :: bs => if a < b then true else if b < a then false else bytesLe as bs

/-- Lexicographic (strict) comparison of byte strings. -/
def bytesLt : Bytes → Bytes → Bool
  | _, [] => false
  | [], _ :: _ => true
  | a :: as, b :: bs => if a < b then true else if b < a then false else bytesLt as bs

/-! ## Data model (src/types, src/catalog declarations used by the slice) -/

/-- Runtime values stored in tuples; the slice exercises 32-bit integers and
booleans, both nullable. -/
inductive DataValue
  | int32 (v : Option Int)
  | boolean (v : Option Bool)
deriving DecidableEq

/-- Logical column types. -/
inductive LogicalType
  | integer
  | boolean
deriving DecidableEq

/-- Column descriptor: logical type, primary flag, unique flag, default. -/
structure ColumnDesc where
  logical_type : LogicalType
  is_primary : Bool
  is_unique : Bool
  default : Option DataValue
deriving DecidableEq

/-- A column is indexed iff it is primary or unique. -/
def ColumnDesc.is_index (d : ColumnDesc) : Bool :=
  d.is_primary || d.is_unique

/-- Column catalog entry: position id (assigned by the table catalog), name,
nullability and descriptor. -/
structure ColumnCatalog where
  id : Option Nat
  name : String
  nullable : Bool
  desc : ColumnDesc
deriving DecidableEq

/-- Index metadata. -/
structure IndexMeta where
  id : Nat
  column_ids : List Nat
  name : String
  is_unique : Bool
  is_primary : Bool
deriving DecidableEq

/-- Table catalog: name, ordered columns, ordered index metas. -/
structure TableCatalog where
  name : String
  columns : List ColumnCatalog
  indexes : List IndexMeta
deriving DecidableEq

/-- All columns of a table in declaration (id) order. -/
def TableCatalog.all_columns (t : TableCatalog) : List ColumnCatalog :=
  t.columns

/-- A tuple: optional primary-key value, column references, one value per
column. -/
structure Tuple where
  id : Option DataValue
  columns : List ColumnCatalog
  values : List DataValue
deriving DecidableEq

/-- An index entry handle: index id plus the key values of the indexed
columns. -/
structure Index where
  id : Nat
  column_values : List DataValue
deriving DecidableEq

/-- Storage error surface. `Engine` wraps substrate and catalog errors. -/
inductive StorageError
  | TableNotFound
  | TableExists
  | DuplicatePrimaryKey
  | DuplicateUniqueValue
  | Codec
  | Engine
deriving DecidableEq

/-- Typed payloads stored under codec keys.  The codec serialises catalog
objects, tuple value rows and tuple-id lists; decoding a payload of the wrong
shape is a codec error. -/
inductive Value
  | rootV (name : String)
  | colV (c : ColumnCatalog)
  | metaV (m : IndexMeta)
  | tupV (values : List DataValue)
  | idsV (ids : List DataValue)
deriving DecidableEq

/-! ## Table codec

Modelled from the spec: src/storage/table_codec.rs is not part of the slice.
The spec fixes five families (`Root`, `Col`, `IdxMeta`, `Idx`, `Tuple`), keys
whose lexicographic order is the scan order, order-preserving value encodings
(sign-flipped integers), and inclusive `[min, max]` bounds per family.  The
layout below groups the per-table families table-major so that each family's
bound encloses exactly that family, and `all_index_bound` encloses the index
metas together with the index entries (drop_table deletes index metas through
it, as the spec's drop_table contract requires). -/

/-- Modelled from the spec: order-preserving encoding of a value as key bytes.
Null sorts first; integers are offset into the naturals (the sign-flipped
big-endian encoding of the codec, collapsed to one generalised byte). -/
def encDV : DataValue → Bytes
  | .int32 none => [0]
  | .int32 (some i) => [1, ((i + 2147483648).emod 4294967296).toNat]
  | .boolean none => [0]
  | .boolean (some b) => [1, if b then 1 else 0]

/-- Modelled from the spec: a string as shifted character bytes, so that 0 can
terminate a name without colliding with any character. -/
def strB (s : String) : Bytes :=
  s.data.map (fun c => c.toNat + 1)

/-- Upper sentinel byte: strictly larger than any character byte, any value
byte and any 32-bit id. -/
def BIG : Nat := 2 ^ 40

/-- Common prefix of all per-table family keys: tag 1, the terminated table
name. -/
def tablePre (t : String) : Bytes :=
  1 :: (strB t ++ [0])

/-- Root table directory key of a table. -/
def rootKey (t : String) : Bytes :=
  0 :: strB t

/-- Column metadata key. -/
def colKey (t : String) (cid : Nat) : Bytes :=
  tablePre t ++ [0, cid]

/-- Index metadata key. -/
def idxMetaKey (t : String) (iid : Nat) : Bytes :=
  tablePre t ++ [1, iid]

/-- Index entry key: index id then the encoded index column values. -/
def idxKeyB (t : String) (iid : Nat) (vb : Bytes) : Bytes :=
  tablePre t ++ [2, iid] ++ vb

/-- Tuple key: the encoded primary key under the tuple family of the table. -/
def tupleKeyB (t : String) (pk : Bytes) : Bytes :=
  tablePre t ++ [3] ++ pk

namespace TableCodec

/-- Modelled from the spec: root directory entry for a table. -/
def encode_root_table (t : String) : Bytes × Value :=
  (rootKey t, .rootV t)

/-- Modelled from the spec: the root directory key alone. -/
def encode_root_table_key (t : String) : Bytes :=
  rootKey t

/-- Modelled from the spec: decode a root directory payload. -/
def decode_root_table : Value → Except StorageError String
  | .rootV n => .ok n
  | _ => .error .Codec

/-- Modelled from the spec: column entry keyed by the column id. -/
def encode_column (t : String) (c : ColumnCatalog) : Except StorageError (Bytes × Value) :=
  match c.id with
  | some cid => .ok (colKey t cid, .colV c)
  | none => .error .Codec

/-- Modelled from the spec: decode a column payload. -/
def decode_column : Value → Except StorageError ColumnCatalog
  | .colV c => .ok c
  | _ => .error .Codec

/-- Modelled from the spec: index-meta entry keyed by the index id. -/
def encode_index_meta (t : String) (m : IndexMeta) : Bytes × Value :=
  (idxMetaKey t m.id, .metaV m)

/-- Modelled from the spec: decode an index-meta payload. -/
def decode_index_meta : Value → Except StorageError IndexMeta
  | .metaV m => .ok m
  | _ => .error .Codec

/-- Modelled from the spec: a tuple is keyed by its encoded primary key; a
tuple without a primary key value cannot be encoded. -/
def encode_tuple (t : String) (tup : Tuple) : Except StorageError (Bytes × Value) :=
  match tup.id with
  | some pk => .ok (tupleKeyB t (encDV pk), .tupV tup.values)
  | none => .error .Codec

/-- Modelled from the spec: the tuple key of a tuple id. -/
def encode_tuple_key (t : String) (tid : DataValue) : Bytes :=
  tupleKeyB t (encDV tid)

/-- Modelled from the spec: the tuple payload holds the value row; the tuple
id is recovered from the primary column's position. -/
def decode_tuple (cols : List ColumnCatalog) (v : Value) : Tuple :=
  match v with
  | .tupV vs =>
      { id := (cols.findIdx? (fun c => c.desc.is_primary)).bind (fun i => vs[i]?),
        columns := cols, values := vs }
  | _ => { id := none, columns := cols, values := [] }

/-- Modelled from the spec: the index entry key of an index handle. -/
def encode_index_key (t : String) (idx : Index) : Bytes :=
  idxKeyB t idx.id ((idx.column_values.map encDV).flatten)

/-- Modelled from the spec: an index entry holds the list of tuple ids. -/
def encode_index (t : String) (idx : Index) (ids : List DataValue) : Bytes × Value :=
  (encode_index_key t idx, .idsV ids)

/-- Modelled from the spec: decode an index payload. -/
def decode_index : Value → Except StorageError (List DataValue)
  | .idsV ids => .ok ids
  | _ => .error .Codec

/-- Modelled from the spec: inclusive bounds of the tuple family of a table. -/
def tuple_bound (t : String) : Bytes × Bytes :=
  (tablePre t ++ [3], tablePre t ++ [3, BIG])

/-- Modelled from the spec: inclusive bounds of the column family of a table. -/
def columns_bound (t : String) : Bytes × Bytes :=
  (tablePre t ++ [0], tablePre t ++ [0, BIG])

/-- Modelled from the spec: inclusive bounds of the index-meta family of a
table. -/
def index_meta_bound (t : String) : Bytes × Bytes :=
  (tablePre t ++ [1], tablePre t ++ [1, BIG])

/-- Modelled from the spec: inclusive bounds covering every index family of a
table, index metas included (the families are laid out adjacently). -/
def all_index_bound (t : String) : Bytes × Bytes :=
  (tablePre t ++ [1], tablePre t ++ [2, BIG])

/-- Modelled from the spec: inclusive bounds of the whole root directory. -/
def root_table_bound : Bytes × Bytes :=
  ([0], [0, BIG])

end TableCodec

/-! ## The MVCC store

An association list sorted by key.  `setVal k (some v)` is the substrate's
`set`, `setVal k none` the tombstone written by `remove`; `get` sees live
values only, while range iteration surfaces tombstoned keys with an absent
value, exactly as the transaction code observes them. -/

/-- The in-memory view of an MVCC transaction's keyspace. -/
abbrev Store := List (Bytes × Option Value)

/-- Sorted insert-or-replace of a key binding. -/
def Store.setVal : Store → Bytes → Option Value → Store
  | [], k, v => [(k, v)]
  | (k', v') :: rest, k, v =>
      if bytesLt k k' then (k, v) :: (k', v') :: rest
      else if k = k' then (k, v) :: rest
      else (k', v') :: Store.setVal rest k v

/-- Point lookup: the live value at a key, if any. -/
def Store.get : Store → Bytes → Option Value
  | [], _ => none
  | (k', v') :: rest, k => if k = k' then v' else Store.get rest k

/-- Whether a key lies in an inclusive byte range. -/
def inRangeB (lo hi k : Bytes) : Bool :=
  bytesLe lo k && bytesLe k hi

/-- The entries a forward range iterator yields (tombstones included), in
store order. -/
def rangeEntries (s : Store) (lo hi : Bytes) : List (Bytes × Option Value) :=
  s.filter (fun e => inRangeB lo hi e.1)

/-- Strictly-ascending-keys invariant of a store. -/
def keysSorted : Store → Bool
  | [] => true
  | [_] => true
  | a :: b :: rest => bytesLt a.1 b.1 && keysSorted ((b :: rest) : Store)

/-! ## Catalog constructors

Modelled from the spec: src/catalog is not part of the slice.  The spec's
TableCatalog invariants are dense column ids from zero in declaration order
and unique names; a catalog reconstruction that fails returns absent, so
construction rejects an empty column list.  `add_index_meta` assigns the next
dense index id at creation time. -/

/-- Modelled from the spec: build a table catalog, assigning dense column ids
and rejecting duplicate column names and an empty column list. -/
def TableCatalog.new (name : String) (columns : List ColumnCatalog) :
    Except StorageError TableCatalog :=
  if columns.isEmpty then .error .Engine
  else if (columns.map (fun c => c.name)).Nodup then
    .ok { name := name,
          columns := columns.enum.map (fun p => { p.2 with id := some p.1 }),
          indexes := [] }
  else .error .Engine

/-- Modelled from the spec: build a table catalog and attach reconstructed
index metas. -/
def TableCatalog.new_with_indexes (name : String) (columns : List ColumnCatalog)
    (indexes : List IndexMeta) : Except StorageError TableCatalog :=
  match TableCatalog.new name columns with
  | .error e => .error e
  | .ok cat => .ok { cat with indexes := indexes }

/-- Modelled from the spec: append an index meta, assigning the next dense
index id; returns the stored meta. -/
def TableCatalog.add_index_meta (t : TableCatalog) (meta : IndexMeta) :
    TableCatalog × IndexMeta :=
  let m := { meta with id := t.indexes.length }
  ({ t with indexes := t.indexes ++ [m] }, m)

/-! ## Projections -/

/-- Projection expressions the scan pipeline evaluates per tuple. -/
inductive ScalarExpression
  | columnRef (c : ColumnCatalog)
  | constant (v : DataValue)
deriving DecidableEq

/-- A projection list. -/
abbrev Projections := List ScalarExpression

/-- Modelled from the spec: evaluate one projection expression against a
tuple (a column reference selects the value at the column's position). -/
def evalColumn (tup : Tuple) : ScalarExpression → DataValue
  | .constant v => v
  | .columnRef c =>
      match tup.columns.findIdx? (fun c2 => c2.name = c.name) with
      | some i => (tup.values[i]?).getD (.int32 none)
      | none => .int32 none

/-- Modelled from the spec: the output column of one projection expression. -/
def outCol (_tup : Tuple) : ScalarExpression → ColumnCatalog
  | .columnRef c => c
  | .constant _ =>
      { id := none, name := "const", nullable := true,
        desc := { logical_type := .integer, is_primary := false,
                  is_unique := false, default := none } }

/-- Modelled from the spec: project a tuple to the requested expressions. -/
def projectTuple (π : Projections) (tup : Tuple) : Tuple :=
  { id := tup.id, columns := π.map (outCol tup), values := π.map (evalColumn tup) }

/-- Modelled from the spec: storage-layer tuple projection; decrements the
remaining limit and projects the tuple. -/
def tuple_projection (limit : Option Nat) (π : Projections) (tup : Tuple) :
    Option Nat × Tuple :=
  (limit.map (fun n => n - 1), projectTuple π tup)

/-! ## The transaction (src/storage/kip.rs) -/

/-- The per-transaction catalog cache (the sharded LRU, modelled unbounded:
eviction only forces a reconstruction that yields the same catalog). -/
abbrev Cache := List (String × TableCatalog)

/-- Cache lookup by table name. -/
def cacheGet (c : Cache) (n : String) : Option TableCatalog :=
  (c.find? (fun e => e.1 = n)).map (fun e => e.2)

/-- Cache insert-or-replace. -/
def cachePut (c : Cache) (n : String) (cat : TableCatalog) : Cache :=
  (n, cat) :: c.filter (fun e => e.1 ≠ n)

/-- Cache eviction. -/
def cacheRemove (c : Cache) (n : String) : Cache :=
  c.filter (fun e => e.1 ≠ n)

/-- A KipSQL storage transaction: the MVCC keyspace view plus the catalog
cache. -/
structure KipTransaction where
  tx : Store
  cache : Cache
deriving DecidableEq

/-- A fresh transaction over an empty database. -/
def KipTransaction.empty : KipTransaction :=
  { tx := [], cache := [] }

/-- Append a tuple (KipTransaction::append): encode, fail
`DuplicatePrimaryKey` if the key is live and overwrite is off, else write. -/
def KipTransaction.append (t : KipTransaction) (table_name : String) (tuple : Tuple)
    (is_overwrite : Bool) : Except StorageError Unit × KipTransaction :=
  match TableCodec.encode_tuple table_name tuple with
  | .error e => (.error e, t)
  | .ok (key, value) =>
      if !is_overwrite && (t.tx.get key).isSome then
        (.error .DuplicatePrimaryKey, t)
      else
        (.ok (), { t with tx := t.tx.setVal key (some value) })

/-- Delete a tuple row (KipTransaction::delete). -/
def KipTransaction.delete (t : KipTransaction) (table_name : String)
    (tuple_id : DataValue) : KipTransaction :=
  { t with tx := t.tx.setVal (TableCodec.encode_tuple_key table_name tuple_id) none }

/-- Outcome of `add_index`, which can panic (the todo branch for non-unique
composite indexes, and out-of-bounds indexing into the tuple-id lists). -/
inductive IdxOut
  | ok (t : KipTransaction)
  | err (e : StorageError) (t : KipTransaction)
  | panicked
deriving DecidableEq

/-- Add an index entry (KipTransaction::add_index).  On a live key with
`is_unique`, compares the first stored tuple id with the first supplied one;
on a live key without `is_unique` the source hits a todo panic. -/
def KipTransaction.add_index (t : KipTransaction) (table_name : String) (index : Index)
    (tuple_ids : List DataValue) (is_unique : Bool) : IdxOut :=
  match TableCodec.encode_index table_name index tuple_ids with
  | (key, value) =>
      match t.tx.get key with
      | some bytes =>
          if is_unique then
            match TableCodec.decode_index bytes with
            | .error e => .err e t
            | .ok old_tuple_ids =>
                match old_tuple_ids[0]?, tuple_ids[0]? with
                | some o, some n =>
                    if o ≠ n then .err .DuplicateUniqueValue t else .ok t
                | _, _ => .panicked
          else .panicked
      | none => .ok { t with tx := t.tx.setVal key (some value) }

/-- Remove an index entry unconditionally (KipTransaction::del_index). -/
def KipTransaction.del_index (t : KipTransaction) (table_name : String)
    (index : Index) : KipTransaction :=
  { t with tx := t.tx.setVal (TableCodec.encode_index_key table_name index) none }

/-! ## Table creation and deletion -/

/-- Create the index metas of a table (KipTransaction::create_index_meta_for_table),
one per indexed column, writing each meta entry; the loop body mirrors the
source's for-loop over the indexed columns. -/
def metaLoop (tname : String) : List ColumnCatalog → Store → TableCatalog →
    Store × TableCatalog
  | [], s, table => (s, table)
  | col :: rest, s, table =>
      match col.id with
      | none => metaLoop tname rest s table
      | some cid =>
          let pre := if col.desc.is_primary then "pk" else "uk"
          let meta : IndexMeta :=
            { id := 0, column_ids := [cid], name := pre ++ "_" ++ col.name,
              is_unique := col.desc.is_unique, is_primary := col.desc.is_primary }
          let step := table.add_index_meta meta
          let kv := TableCodec.encode_index_meta tname step.2
          metaLoop tname rest (s.setVal kv.1 (some kv.2)) step.1

/-- KipTransaction::create_index_meta_for_table over the indexed columns. -/
def create_index_meta_for_table (s : Store) (table : TableCatalog) :
    Store × TableCatalog :=
  metaLoop table.name (table.all_columns.filter (fun c => c.desc.is_index)) s table

/-- Write one column entry per column of the catalog (the write loop of
KipTransaction::create_table).  `encode_column` cannot fail for catalogs built
by `TableCatalog.new`, whose column ids are all assigned. -/
def writeColumns : Store → String → List ColumnCatalog → Except StorageError Store
  | s, _, [] => .ok s
  | s, t, c :: rest =>
      match TableCodec.encode_column t c with
      | .error e => .error e
      | .ok kv => writeColumns (s.setVal kv.1 (some kv.2)) t rest

/-- Create a table (KipTransaction::create_table): check the root entry,
write it, derive index metas, write columns, seed the cache. -/
def KipTransaction.create_table (t : KipTransaction) (table_name : String)
    (columns : List ColumnCatalog) (if_not_exists : Bool) :
    Except StorageError String × KipTransaction :=
  match TableCodec.encode_root_table table_name with
  | (table_key, value) =>
      if (t.tx.get table_key).isSome then
        if if_not_exists then (.ok table_name, t)
        else (.error .TableExists, t)
      else
        let tx1 := t.tx.setVal table_key (some value)
        match TableCatalog.new table_name columns with
        | .error e => (.error e, { t with tx := tx1 })
        | .ok table_catalog =>
            match create_index_meta_for_table tx1 table_catalog with
            | (tx2, table_catalog) =>
                match writeColumns tx2 table_name table_catalog.columns with
                | .error e => (.error e, { t with tx := tx2 })
                | .ok tx3 =>
                    (.ok table_name,
                     { tx := tx3, cache := cachePut t.cache table_name table_catalog })

/-- The live keys a range scan observes (the collect loop of
KipTransaction::_drop_data). -/
def liveKeysInRange (s : Store) (lo hi : Bytes) : List Bytes :=
  (rangeEntries s lo hi).filterMap (fun e => if e.2.isSome then some e.1 else none)

/-- Tombstone a list of keys (the remove loop of KipTransaction::_drop_data). -/
def removeKeys (s : Store) (ks : List Bytes) : Store :=
  ks.foldl (fun acc k => acc.setVal k none) s

/-- KipTransaction::_drop_data over one inclusive range. -/
def dropRangeData (s : Store) (lo hi : Bytes) : Store :=
  removeKeys s (liveKeysInRange s lo hi)

/-- KipTransaction::drop_data: clear the tuple family, then every index
family (metas included, by the all-index bound). -/
def drop_data (s : Store) (table_name : String) : Store :=
  let tb := TableCodec.tuple_bound table_name
  let s1 := dropRangeData s tb.1 tb.2
  let ib := TableCodec.all_index_bound table_name
  dropRangeData s1 ib.1 ib.2

/-- Drop a table (KipTransaction::drop_table): drop the data families, remove
every live column entry, remove the root entry, evict the cache entry. -/
def KipTransaction.drop_table (t : KipTransaction) (table_name : String) :
    KipTransaction :=
  let tx1 := drop_data t.tx table_name
  let cb := TableCodec.columns_bound table_name
  let col_keys := liveKeysInRange tx1 cb.1 cb.2
  let tx2 := removeKeys tx1 col_keys
  let tx3 := tx2.setVal (TableCodec.encode_root_table_key table_name) none
  { tx := tx3, cache := cacheRemove t.cache table_name }

/-! ## Catalog reconstruction and the root scan -/

/-- One step of an underlying range iterator: either an entry (possibly a
tombstone) or an iterator failure. -/
inductive IterEvent
  | errEv
  | item (e : Bytes × Option Value)

/-- The event stream of an in-memory range scan: all entries, no failures. -/
def iterEvents (s : Store) (lo hi : Bytes) : List IterEvent :=
  (rangeEntries s lo hi).map IterEvent.item

/-- The collect loop of KipTransaction::column_collect: iterator failures end
the loop silently, decode failures propagate. -/
def colCollectGo : List IterEvent → Except StorageError (List ColumnCatalog)
  | [] => .ok []
  | .errEv :: _ => .ok []
  | .item (_, none) :: rest => colCollectGo rest
  | .item (_, some v) :: rest =>
      match TableCodec.decode_column v with
      | .error e => .error e
      | .ok c => (colCollectGo rest).map (fun cs => c :: cs)

/-- KipTransaction::column_collect: scan the column family of a table. -/
def column_collect (table_name : String) (tx : Store) :
    Except StorageError (List ColumnCatalog) :=
  let cb := TableCodec.columns_bound table_name
  colCollectGo (iterEvents tx cb.1 cb.2)

/-- KipTransaction::index_meta_collect: scan the index-meta family; decode
failures are skipped, an iterator-open failure yields `none`. -/
def index_meta_collect (name : String) (tx : Store) : Option (List IndexMeta) :=
  let ib := TableCodec.index_meta_bound name
  some ((rangeEntries tx ib.1 ib.2).filterMap
    (fun e => e.2.bind (fun v => (TableCodec.decode_index_meta v).toOption)))

/-- Look up a table catalog (KipTransaction::table): the cache, or a
reconstruction from the column and index-meta families; a failed
reconstruction is absent. -/
def KipTransaction.table (t : KipTransaction) (table_name : String) :
    Option TableCatalog :=
  match cacheGet t.cache table_name with
  | some c => some c
  | none =>
      match column_collect table_name t.tx with
      | .error _ => none
      | .ok columns =>
          match index_meta_collect table_name t.tx with
          | none => none
          | some indexes =>
              (TableCatalog.new_with_indexes table_name columns indexes).toOption

/-- The root-family scan loop of KipTransaction::show_tables over an event
stream: an iterator failure ends the loop silently (`.ok().flatten()` in the
source), a decode failure of a present value propagates. -/
def show_tables_events : List IterEvent → Except StorageError (List String)
  | [] => .ok []
  | .errEv :: _ => .ok []
  | .item (_, none) :: rest => show_tables_events rest
  | .item (_, some v) :: rest =>
      match TableCodec.decode_root_table v with
      | .error e => .error e
      | .ok n => (show_tables_events rest).map (fun ns => n :: ns)

/-- KipTransaction::show_tables: decode every present value of the root
family. -/
def KipTransaction.show_tables (t : KipTransaction) :
    Except StorageError (List String) :=
  show_tables_events (iterEvents t.tx TableCodec.root_table_bound.1
    TableCodec.root_table_bound.2)

/-! ## Forward scans (KipIter) -/

/-- The state of a forward tuple scan (struct KipIter). -/
structure KipIter where
  offset : Nat
  limit : Option Nat
  projections : Projections
  all_columns : List ColumnCatalog
  iter : List (Bytes × Option Value)
deriving DecidableEq

/-- Open a forward scan over the tuple family (KipTransaction::read); fails
`TableNotFound` when the catalog is absent. -/
def KipTransaction.read (t : KipTransaction) (table_name : String)
    (bounds : Option Nat × Option Nat) (projections : Projections) :
    Except StorageError KipIter :=
  match t.table table_name with
  | none => .error .TableNotFound
  | some cat =>
      let tb := TableCodec.tuple_bound table_name
      .ok { offset := bounds.1.getD 0, limit := bounds.2,
            projections := projections, all_columns := cat.all_columns,
            iter := rangeEntries t.tx tb.1 tb.2 }

/-- The inner loop of KipIter::next_tuple: skip tombstones, decode and
project the first live value, returning the updated limit and the remaining
entries. -/
def scanIter (limit : Option Nat) (π : Projections) (cols : List ColumnCatalog) :
    List (Bytes × Option Value) →
      Option Tuple × Option Nat × List (Bytes × Option Value)
  | [] => (none, limit, [])
  | (_, none) :: rest => scanIter limit π cols rest
  | (_, some v) :: rest =>
      let p := tuple_projection limit π (TableCodec.decode_tuple cols v)
      (some p.2, p.1, rest)

/-- KipIter::next_tuple: consume the remaining offset as physical entries,
stop when the limit is exhausted, else yield the next projected live tuple. -/
def KipIter.next_tuple (it : KipIter) : Option Tuple × KipIter :=
  let it0 : KipIter := { it with iter := it.iter.drop it.offset, offset := 0 }
  if it0.limit = some 0 then (none, it0)
  else
    match scanIter it0.limit it0.projections it0.all_columns it0.iter with
    | (res, limit2, rest) => (res, { it0 with limit := limit2, iter := rest })

/-- Drive a scan to exhaustion (the `while let Some` loops of the source's
tests), with fuel bounding the number of `next_tuple` calls. -/
def runIter : Nat → KipIter → List Tuple
  | 0, _ => []
  | fuel + 1, it =>
      match it.next_tuple with
      | (none, _) => []
      | (some tup, it2) => tup :: runIter fuel it2

/-! ## Binder (src/binder/mod.rs) -/

/-- Binding error surface (enum BindError). -/
inductive BindError
  | UnsupportedStmt (s : String)
  | InvalidTable (s : String)
  | InvalidTableName (idents : List String)
  | InvalidColumn (s : String)
  | AmbiguousColumn (s : String)
  | BinaryOpTypeMismatch (l r : String)
  | Subquery (s : String)
  | AggMiss (s : String)
  | CatalogError (s : String)
  | TypeError (s : String)
  | UnsupportedCopySource (s : String)
deriving DecidableEq

/-- Object types a DROP statement can target. -/
inductive ObjectType
  | Table
  | Index
  | Schema
  | View
deriving DecidableEq

/-- A possibly-qualified object name. -/
structure ObjectName where
  idents : List String
deriving DecidableEq

/-- The body of an INSERT source: a literal VALUES list or anything else. -/
inductive SetExprS
  | values (rows : Nat)
  | other
deriving DecidableEq

/-- A FROM item: a relation with its join list (only emptiness matters to the
dispatch). -/
structure TableWithJoins where
  relation : String
  joins : List Unit
deriving DecidableEq

/-- The statement shapes the binder dispatch distinguishes.  `other` stands
for every parser statement outside the recognised variants, identified by its
rendered SQL text (the argument of `stmt.to_string()` in the source). -/
inductive Statement
  | query (q : Nat)
  | createTable (name : ObjectName) (columns : Nat) (if_not_exists : Bool)
  | drop (object_type : ObjectType) (names : List ObjectName)
  | insert (table_name : ObjectName) (columns : List String) (source : SetExprS)
      (overwrite : Bool)
  | update (table : TableWithJoins) (assignments : Nat)
  | delete (fromTables : List TableWithJoins)
  | truncate (table_name : ObjectName)
  | showTables
  | copy (source : ObjectName) (toTarget : Bool)
  | other (text : String)
deriving DecidableEq

/-- The plans the binder emits (stubs: only the dispatch of Binder::bind is
under study; the per-statement binders live outside the slice). -/
inductive BoundPlan
  | queryPlan
  | createTablePlan
  | dropTablePlan
  | insertPlan
  | updatePlan
  | deletePlan
  | truncatePlan
  | showTablesPlan
  | copyPlan
deriving DecidableEq

/-- Outcome of Binder::bind: a plan, a binding error, or a panic of a
todo/unimplemented arm. -/
inductive BOut
  | ok (p : BoundPlan)
  | err (e : BindError)
  | panicked
deriving DecidableEq

/-- Modelled from the spec: the per-statement binders (bind_query,
bind_create_table, bind_drop_table, bind_insert, bind_update, bind_delete,
bind_truncate, bind_show_tables, bind_copy) are outside the slice; the spec
describes each as emitting the corresponding plan. -/
def bind_query (_q : Nat) : BOut := .ok .queryPlan

/-- Modelled from the spec: see bind_query. -/
def bind_create_table (_n : ObjectName) (_c : Nat) (_ine : Bool) : BOut :=
  .ok .createTablePlan

/-- Modelled from the spec: see bind_query. -/
def bind_drop_table (_n : ObjectName) : BOut := .ok .dropTablePlan

/-- Modelled from the spec: see bind_query. -/
def bind_insert (_n : ObjectName) (_cols : List String) (_rows : Nat)
    (_overwrite : Bool) : BOut := .ok .insertPlan

/-- Modelled from the spec: see bind_query. -/
def bind_update (_t : TableWithJoins) (_a : Nat) : BOut := .ok .updatePlan

/-- Modelled from the spec: see bind_query. -/
def bind_delete (_t : TableWithJoins) : BOut := .ok .deletePlan

/-- Modelled from the spec: see bind_query. -/
def bind_truncate (_n : ObjectName) : BOut := .ok .truncatePlan

/-- Modelled from the spec: see bind_query. -/
def bind_show_tables : BOut := .ok .showTablesPlan

/-- Modelled from the spec: see bind_query. -/
def bind_copy (_s : ObjectName) (_to : Bool) : BOut := .ok .copyPlan

/-- Binder::bind: dispatch on the statement shape.  Drop of a non-table
object and Insert from a non-VALUES source hit todo panics; Update and Delete
with joins hit unimplemented panics; Delete also indexes `from[0]`
unconditionally; everything outside the recognised variants is rejected as
`UnsupportedStmt` carrying the statement text. -/
def Binder.bind (stmt : Statement) : BOut :=
  match stmt with
  | .query q => bind_query q
  | .createTable name columns if_not_exists =>
      bind_create_table name columns if_not_exists
  | .drop object_type names =>
      match object_type with
      | .Table =>
          match names[0]? with
          | some n => bind_drop_table n
          | none => .panicked
      | _ => .panicked
  | .insert table_name columns source overwrite =>
      match source with
      | .values rows => bind_insert table_name columns rows overwrite
      | .other => .panicked
  | .update table assignments =>
      if table.joins.isEmpty then bind_update table assignments
      else .panicked
  | .delete fromTables =>
      match fromTables[0]? with
      | none => .panicked
      | some table =>
          if table.joins.isEmpty then bind_delete table
          else .panicked
  | .truncate table_name => bind_truncate table_name
  | .showTables => bind_show_tables
  | .copy source toTarget => bind_copy source toTarget
  | .other text => .err (.UnsupportedStmt text)

/-! ## Physical planner (src/execution_v1/physical_plan/physical_plan_builder.rs) -/

/-- Logical select operators (enum Operator); only Project and Scan are
lowered, the rest reach the unsupported arm. -/
inductive Operator
  | project (columns : Projections)
  | scan (table_name : String)
  | filter
  | join
  | aggregate
  | sort
  | limit
deriving DecidableEq

/-- A logical select plan node with its children. -/
inductive LogicalSelectPlan
  | node (operator : Operator) (childs : List LogicalSelectPlan)

/-- The operator of a select node. -/
def LogicalSelectPlan.operator : LogicalSelectPlan → Operator
  | .node op _ => op

/-- The children of a select node. -/
def LogicalSelectPlan.childs : LogicalSelectPlan → List LogicalSelectPlan
  | .node _ cs => cs

/-- The create-table logical operator. -/
structure CreateTableOp where
  table_name : String
  columns : List ColumnCatalog
deriving DecidableEq

/-- The insert logical operator. -/
structure InsertOp where
  table : String
  col_idxs : List Nat
  cols : Nat
deriving DecidableEq

/-- The logical plans the v1 planner accepts (enum LogicalPlan of the
execution_v1 slice: exactly the three variants its match covers). -/
inductive LogicalPlan
  | select (p : LogicalSelectPlan)
  | createTable (p : CreateTableOp)
  | insert (p : InsertOp)

/-- Physical operators (enum PhysicalOperator): only Projection and TableScan
carry a plan id, CreateTable and Insert do not. -/
inductive PhysicalOperator
  | projection (plan_id : Nat) (exprs : Projections) (input : PhysicalOperator)
  | tableScan (plan_id : Nat) (base : String)
  | createTableP (table_name : String) (columns : List ColumnCatalog)
  | insertP (table_name : String) (col_idxs : List Nat) (cols : Nat)
deriving DecidableEq

/-- PhysicalPlanBuilder::next_plan_id: return the counter and increment it. -/
def next_plan_id (c : Nat) : Nat × Nat :=
  (c, c + 1)

/-- PhysicalPlanBuilder::build_select_logical_plan (with
build_physical_projection and build_physical_scan inlined at their single
call sites): Project recurses on child 0 before taking an id, Scan takes an
id at the leaf, anything else is an unsupported-plan error. -/
def build_select_logical_plan (c : Nat) :
    LogicalSelectPlan → Except String (PhysicalOperator × Nat)
  | .node (.project exprs) childs =>
      match childs with
      | [] => .error "invalid child index"
      | child :: _ =>
          match build_select_logical_plan c child with
          | .error e => .error e
          | .ok (input, c1) =>
              match next_plan_id c1 with
              | (id, c2) => .ok (.projection id exprs input, c2)
  | .node (.scan base) _ =>
      match next_plan_id c with
      | (id, c1) => .ok (.tableScan id base, c1)
  | .node _ _ => .error "Unsupported physical plan"

/-- PhysicalPlanBuilder::build_plan: CreateTable and Insert are lowered
without touching the plan-id counter. -/
def build_plan (c : Nat) : LogicalPlan → Except String (PhysicalOperator × Nat)
  | .select p => build_select_logical_plan c p
  | .createTable p => .ok (.createTableP p.table_name p.columns, c)
  | .insert p => .ok (.insertP p.table p.col_idxs p.cols, c)

/-- Number of id-carrying physical nodes in a select operator tree. -/
def countNodes : PhysicalOperator → Nat
  | .projection _ _ input => countNodes input + 1
  | .tableScan _ _ => 1
  | _ => 0

/-- The plan id at the root of a select operator tree. -/
def rootId : PhysicalOperator → Nat
  | .projection id _ _ => id
  | .tableScan id _ => id
  | _ => 0

/-- Post-order id discipline: every child's plan id is strictly below its
parent's. -/
def postOrdered : PhysicalOperator → Bool
  | .projection id _ input => postOrdered input && decide (rootId input < id)
  | _ => true

/-- Decidable equality on Except, for evaluating concrete outcomes. -/
instance {e a : Type} [DecidableEq e] [DecidableEq a] : DecidableEq (Except e a) := fun x y =>
  match x, y with
  | .ok v, .ok w =>
      if h : v = w then .isTrue (by rw [h]) else .isFalse (fun hc => h (Except.ok.inj hc))
  | .error v, .error w =>
      if h : v = w then .isTrue (by rw [h]) else .isFalse (fun hc => h (Except.error.inj hc))
  | .ok _, .error _ => .isFalse (fun hc => Except.noConfusion hc)
  | .error _, .ok _ => .isFalse (fun hc => Except.noConfusion hc)

/-- The table names decoded from the present values of an event prefix (the
contents of the vector show_tables accumulates while the loop runs). -/
def rootItemNames (evs : List IterEvent) : List String :=
  evs.filterMap (fun ev =>
    match ev with
    | .item (_, some v) => (TableCodec.decode_root_table v).toOption
    | _ => none)

/-! ## Concrete fixtures used by witnesses and counterexamples -/

/-- A primary-key integer column named a (the shape the binder produces for
a INT PRIMARY KEY), with a selectable unique flag. -/
def pkColumn (u : Bool) : ColumnCatalog :=
  { id := none, name := "a", nullable := false,
    desc := { logical_type := .integer, is_primary := true, is_unique := u,
              default := none } }

/-- A transaction holding the table t1 (a INT PRIMARY KEY). -/
def txT1 : KipTransaction :=
  (KipTransaction.empty.create_table "t1" [pkColumn false] false).2

/-- A one-column tuple of t1 with primary key value i. -/
def tupFix (i : Int) : Tuple :=
  { id := some (.int32 (some i)), columns := [pkColumn false],
    values := [.int32 (some i)] }

/-- txT1 after inserting the tuples 0, 1, 2. -/
def txData : KipTransaction :=
  (((txT1.append "t1" (tupFix 0) false).2.append "t1"
      (tupFix 1) false).2.append "t1" (tupFix 2) false).2

/-- An index handle over one value. -/
def idxFix : Index :=
  { id := 0, column_values := [.int32 (some 5)] }

/-- txT1 with one stored index entry holding the tuple-id list of 0. -/
def txIdx : KipTransaction :=
  { txT1 with
    tx := txT1.tx.setVal (TableCodec.encode_index_key "t1" idxFix)
            (some (.idsV [.int32 (some 0)])) }

/-! # Theorems

General lemmas about the lexicographic order, the store, and the codec key
families, followed by one theorem per claim of the specification audit. -/

theorem bytesLe_refl : ∀ a : Bytes, bytesLe a a = true := by
  intro a
  induction a with
  | nil => rfl
  | cons x xs ih => simp [bytesLe, ih]

theorem bytesLt_irrefl : ∀ a : Bytes, bytesLt a a = false := by
  intro a
  induction a with
  | nil => rfl
  | cons x xs ih => simp [bytesLt, ih]

theorem bytesLt_trans :
    ∀ a b c : Bytes, bytesLt a b = true → bytesLt b c = true → bytesLt a c = true := by
  intro a
  induction a with
  | nil =>
    intro b c h1 h2
    cases c with
    | nil =>
      cases b with
      | nil => simp [bytesLt] at h1
      | cons y ys => simp [bytesLt] at h2
    | cons z zs => simp [bytesLt]
  | cons x xs ih =>
    intro b c h1 h2
    cases b with
    | nil => simp [bytesLt] at h1
    | cons y ys =>
      cases c with
      | nil => simp [bytesLt] at h2
      | cons z zs =>
        rcases Nat.lt_trichotomy x y with hxy | hxy | hxy
        · rcases Nat.lt_trichotomy y z with hyz | hyz | hyz
          · simp [bytesLt, Nat.lt_trans hxy hyz]
          · subst hyz; simp [bytesLt, hxy]
          · simp [bytesLt, Nat.lt_asymm hyz, hyz] at h2
        · subst hxy
          rcases Nat.lt_trichotomy x z with hxz | hxz | hxz
          · simp [bytesLt, hxz]
          · subst hxz
            simp only [bytesLt, Nat.lt_irrefl, if_false] at h1 h2 ⊢
            exact ih ys zs h1 h2
          · simp [bytesLt, Nat.lt_asymm hxz, hxz] at h2
        · simp [bytesLt, Nat.lt_asymm hxy, hxy] at h1

theorem bytesLt_asymm {a b : Bytes} (h : bytesLt a b = true) : bytesLt b a = false := by
  cases h2 : bytesLt b a
  · rfl
  · have h3 := bytesLt_trans a b a h h2
    rw [bytesLt_irrefl] at h3
    exact absurd h3 (by simp)

theorem bytesLt_total :
    ∀ a b : Bytes, bytesLt a b = false → a ≠ b → bytesLt b a = true := by
  intro a
  induction a with
  | nil =>
    intro b h1 hne
    cases b with
    | nil => exact absurd rfl hne
    | cons y ys => simp [bytesLt] at h1
  | cons x xs ih =>
    intro b h1 hne
    cases b with
    | nil => simp [bytesLt]
    | cons y ys =>
      rcases Nat.lt_trichotomy x y with hxy | hxy | hxy
      · simp [bytesLt, hxy] at h1
      · subst hxy
        simp only [bytesLt, Nat.lt_irrefl, if_false] at h1 ⊢
        refine ih ys h1 ?_
        intro hEq
        exact hne (by rw [hEq])
      · simp [bytesLt, hxy]

theorem bytesLe_append_same :
    ∀ p a b : Bytes, bytesLe (p ++ a) (p ++ b) = bytesLe a b := by
  intro p
  induction p with
  | nil => intro a b; rfl
  | cons x xs ih => intro a b; simp [bytesLe, Nat.lt_irrefl, ih]

theorem bytesLe_append_right (p a : Bytes) : bytesLe p (p ++ a) = true := by
  have h := bytesLe_append_same p [] a
  simpa [bytesLe] using h

theorem bytesLe_single_big {pk : Bytes}
    (h : ∀ hd tl, pk = hd :: tl → hd < BIG) : bytesLe pk [BIG] = true := by
  cases pk with
  | nil => rfl
  | cons hd tl =>
    have := h hd tl rfl
    simp [bytesLe, this]

/-! ## Store lemmas -/

theorem get_setVal_self : ∀ (s : Store) (k : Bytes) (v : Option Value),
    (s.setVal k v).get k = v := by
  intro s k v
  induction s with
  | nil => simp [Store.setVal, Store.get]
  | cons e rest ih =>
    by_cases hlt : bytesLt k e.1 = true
    · simp [Store.setVal, hlt, Store.get]
    · by_cases heq : k = e.1
      · subst heq
        simp [Store.setVal, bytesLt_irrefl, Store.get]
      · simp [Store.setVal, hlt, heq, Store.get, ih]

theorem get_setVal_ne : ∀ (s : Store) (k : Bytes) (v : Option Value) (k2 : Bytes),
    k2 ≠ k → (s.setVal k v).get k2 = s.get k2 := by
  intro s k v k2 hne
  induction s with
  | nil => simp [Store.setVal, Store.get, hne]
  | cons e rest ih =>
    by_cases hlt : bytesLt k e.1 = true
    · simp [Store.setVal, hlt, Store.get, hne]
    · by_cases heq : k = e.1
      · subst heq
        simp [Store.setVal, bytesLt_irrefl, Store.get, hne]
      · by_cases h2 : k2 = e.1
        · simp [Store.setVal, hlt, heq, Store.get, h2]
        · simp [Store.setVal, hlt, heq, Store.get, h2, ih]

theorem mem_setVal : ∀ (s : Store) (k : Bytes) (v : Option Value) (e : Bytes × Option Value),
    e ∈ s.setVal k v → e = (k, v) ∨ e ∈ s := by
  intro s k v e
  induction s with
  | nil => intro h; simp [Store.setVal] at h; exact Or.inl h
  | cons e2 rest ih =>
    intro h
    by_cases hlt : bytesLt k e2.1 = true
    · simp only [Store.setVal, hlt, if_true] at h
      rcases List.mem_cons.1 h with h | h
      · exact Or.inl h
      · exact Or.inr h
    · by_cases heq : k = e2.1
      · subst heq
        simp only [Store.setVal, bytesLt_irrefl, Bool.false_eq_true, if_false, if_true] at h
        rcases List.mem_cons.1 h with h | h
        · exact Or.inl h
        · exact Or.inr (List.mem_cons_of_mem _ h)
      · simp only [Store.setVal, hlt, if_false, heq] at h
        rcases List.mem_cons.1 h with h | h
        · exact Or.inr (by rw [h]; exact List.mem_cons_self _ _)
        · rcases ih h with h | h
          · exact Or.inl h
          · exact Or.inr (List.mem_cons_of_mem _ h)

theorem get_eq_some_mem : ∀ (s : Store) (k : Bytes) (v : Value),
    s.get k = some v → (k, some v) ∈ s := by
  intro s k v
  induction s with
  | nil => intro h; simp [Store.get] at h
  | cons e rest ih =>
    intro h
    by_cases heq : k = e.1
    · simp only [Store.get, heq, if_true] at h
      exact List.mem_cons.2 (Or.inl (by rw [heq, ← h]))
    · simp only [Store.get, heq, if_false] at h
      exact List.mem_cons_of_mem _ (ih h)

theorem get_removeKeys : ∀ (ks : List Bytes) (s : Store) (k : Bytes),
    (removeKeys s ks).get k = if k ∈ ks then none else s.get k := by
  intro ks
  induction ks with
  | nil => intro s k; simp [removeKeys]
  | cons k0 rest ih =>
    intro s k
    have hstep : removeKeys s (k0 :: rest) = removeKeys (s.setVal k0 none) rest := rfl
    rw [hstep, ih]
    by_cases hmem : k ∈ rest
    · simp [hmem]
    · by_cases heq : k = k0
      · subst heq
        simp [hmem, get_setVal_self]
      · simp [hmem, heq, get_setVal_ne _ _ _ _ heq]

theorem mem_removeKeys : ∀ (ks : List Bytes) (s : Store) (k : Bytes) (v : Value),
    (k, some v) ∈ removeKeys s ks → (k, some v) ∈ s := by
  intro ks
  induction ks with
  | nil => intro s k v h; exact h
  | cons k0 rest ih =>
    intro s k v h
    have hstep : removeKeys s (k0 :: rest) = removeKeys (s.setVal k0 none) rest := rfl
    rw [hstep] at h
    rcases mem_setVal _ _ _ _ (ih _ _ _ h) with h2 | h2
    · exact absurd h2 (by simp)
    · exact h2

/-- The strictly-ascending-keys invariant, as a pairwise property. -/
def StoreWf (s : Store) : Prop :=
  s.Pairwise (fun a b => bytesLt a.1 b.1 = true)

instance : DecidablePred StoreWf := by
  intro s
  unfold StoreWf
  infer_instance

theorem storeWf_setVal {s : Store} (k : Bytes) (v : Option Value) (h : StoreWf s) :
    StoreWf (s.setVal k v) := by
  induction s with
  | nil => simp [Store.setVal, StoreWf]
  | cons e rest ih =>
    have hhead := (List.pairwise_cons.1 h).1
    have htail := (List.pairwise_cons.1 h).2
    by_cases hlt : bytesLt k e.1 = true
    · simp only [Store.setVal, hlt, if_true]
      refine List.pairwise_cons.2 ⟨?_, h⟩
      intro e2 he2
      rcases List.mem_cons.1 he2 with h2 | h2
      · rw [h2]; exact hlt
      · exact bytesLt_trans _ _ _ hlt (hhead e2 h2)
    · by_cases heq : k = e.1
      · subst heq
        simp only [Store.setVal, bytesLt_irrefl, Bool.false_eq_true, if_false, if_true]
        refine List.pairwise_cons.2 ⟨?_, htail⟩
        intro e2 he2
        exact hhead e2 he2
      · simp only [Store.setVal, hlt, heq, if_false]
        refine List.pairwise_cons.2 ⟨?_, ih htail⟩
        intro e2 he2
        rcases mem_setVal _ _ _ _ he2 with h2 | h2
        · rw [h2]
          exact bytesLt_total _ _ (by simpa using hlt) heq
        · exact hhead e2 h2

theorem storeWf_removeKeys {s : Store} (ks : List Bytes) (h : StoreWf s) :
    StoreWf (removeKeys s ks) := by
  induction ks generalizing s with
  | nil => exact h
  | cons k0 rest ih => exact ih (storeWf_setVal k0 none h)

theorem get_of_mem_wf : ∀ (s : Store), StoreWf s →
    ∀ (k : Bytes) (ov : Option Value), (k, ov) ∈ s → s.get k = ov := by
  intro s hwf
  induction s with
  | nil => intro k ov h; simp at h
  | cons e rest ih =>
    intro k ov h
    have hhead := (List.pairwise_cons.1 hwf).1
    have htail := (List.pairwise_cons.1 hwf).2
    rcases List.mem_cons.1 h with h2 | h2
    · have hk : k = e.1 := by rw [← h2]
      have hv : ov = e.2 := by rw [← h2]
      simp [Store.get, hk, hv]
    · have hlt : bytesLt e.1 k = true := hhead _ h2
    -- the head key is strictly below k, so lookup skips the head
      have hne : k ≠ e.1 := by
        intro hEq
        rw [hEq, bytesLt_irrefl] at hlt
        exact Bool.false_ne_true hlt
      simp only [Store.get, hne, if_false]
      exact ih htail k ov h2

/-! ## Key family and range lemmas -/

theorem encDV_head_lt_big (dv : DataValue) :
    ∀ hd tl, encDV dv = hd :: tl → hd < BIG := by
  intro hd tl h
  cases dv with
  | int32 v =>
    cases v with
    | none => simp [encDV] at h; simp [← h.1, BIG]
    | some i => simp [encDV] at h; simp [← h.1, BIG]
  | boolean v =>
    cases v with
    | none => simp [encDV] at h; simp [← h.1, BIG]
    | some b => simp [encDV] at h; simp [← h.1, BIG]

theorem tupleKey_inRange (t : String) (dv : DataValue) :
    inRangeB (TableCodec.tuple_bound t).1 (TableCodec.tuple_bound t).2
      (tupleKeyB t (encDV dv)) = true := by
  have hkey : tupleKeyB t (encDV dv) = (tablePre t ++ [3]) ++ encDV dv := by
    simp [tupleKeyB]
  have hmax : (tablePre t ++ [3, BIG] : Bytes) = (tablePre t ++ [3]) ++ [BIG] := by
    simp
  unfold inRangeB TableCodec.tuple_bound
  rw [hkey, hmax, bytesLe_append_right, bytesLe_append_same]
  simp [bytesLe_single_big (fun hd tl h => encDV_head_lt_big dv hd tl h)]

theorem idxMetaKey_inAllIndexRange (t : String) (iid : Nat) :
    inRangeB (TableCodec.all_index_bound t).1 (TableCodec.all_index_bound t).2
      (idxMetaKey t iid) = true := by
  have hkey : idxMetaKey t iid = tablePre t ++ ([1, iid] : Bytes) := by
    simp [idxMetaKey]
  unfold inRangeB TableCodec.all_index_bound
  rw [hkey, bytesLe_append_same, bytesLe_append_same]
  simp [bytesLe]

theorem idxKey_inAllIndexRange (t : String) (iid : Nat) (vb : Bytes) (hiid : iid < BIG) :
    inRangeB (TableCodec.all_index_bound t).1 (TableCodec.all_index_bound t).2
      (idxKeyB t iid vb) = true := by
  have hkey : idxKeyB t iid vb = tablePre t ++ (2 :: iid :: vb) := by
    simp [idxKeyB]
  unfold inRangeB TableCodec.all_index_bound
  rw [hkey, bytesLe_append_same, bytesLe_append_same]
  simp [bytesLe, Nat.lt_irrefl, hiid]

theorem colKey_inColumnsRange (t : String) (cid : Nat) (hcid : cid < BIG) :
    inRangeB (TableCodec.columns_bound t).1 (TableCodec.columns_bound t).2
      (colKey t cid) = true := by
  have hkey : colKey t cid = tablePre t ++ ([0, cid] : Bytes) := by
    simp [colKey]
  unfold inRangeB TableCodec.columns_bound
  rw [hkey, bytesLe_append_same, bytesLe_append_same]
  simp [bytesLe, hcid]

theorem idxMetaKey_inMetaRange (t : String) (iid : Nat) (hiid : iid < BIG) :
    inRangeB (TableCodec.index_meta_bound t).1 (TableCodec.index_meta_bound t).2
      (idxMetaKey t iid) = true := by
  have hkey : idxMetaKey t iid = tablePre t ++ ([1, iid] : Bytes) := by
    simp [idxMetaKey]
  unfold inRangeB TableCodec.index_meta_bound
  rw [hkey, bytesLe_append_same, bytesLe_append_same]
  simp [bytesLe, hiid]

/-- The root key of any table sorts strictly below every per-table family
key, hence outside every per-table range. -/
theorem rootKey_not_inRange_tablePre (t t2 : String) (suffix : Bytes) :
    inRangeB (tablePre t2 ++ suffix) (tablePre t2 ++ (suffix ++ [BIG]))
      (rootKey t) = false := by
  unfold inRangeB
  have h1 : bytesLe (tablePre t2 ++ suffix) (rootKey t) = false := by
    simp [tablePre, rootKey, bytesLe]
  simp [h1]

/-! ## Range-drop lemmas -/

theorem get_dropRangeData_of_inRange (s : Store) (lo hi k : Bytes)
    (hk : inRangeB lo hi k = true) : (dropRangeData s lo hi).get k = none := by
  unfold dropRangeData
  rw [get_removeKeys]
  by_cases hmem : k ∈ liveKeysInRange s lo hi
  · simp [hmem]
  · simp only [hmem, if_false]
    cases hget : s.get k with
    | none => rfl
    | some v =>
      exfalso
      apply hmem
      unfold liveKeysInRange rangeEntries
      refine List.mem_filterMap.2 ⟨(k, some v), ?_, ?_⟩
      · exact List.mem_filter.2 ⟨get_eq_some_mem s k v hget, hk⟩
      · simp

theorem get_dropRangeData_none (s : Store) (lo hi k : Bytes)
    (h : s.get k = none) : (dropRangeData s lo hi).get k = none := by
  unfold dropRangeData
  rw [get_removeKeys]
  simp [h]

theorem get_removeKeys_none (s : Store) (ks : List Bytes) (k : Bytes)
    (h : s.get k = none) : (removeKeys s ks).get k = none := by
  rw [get_removeKeys]
  simp [h]

theorem get_setVal_none (s : Store) (k0 k : Bytes)
    (h : s.get k = none) : (s.setVal k0 none).get k = none := by
  by_cases heq : k = k0
  · subst heq; rw [get_setVal_self]
  · rw [get_setVal_ne _ _ _ _ heq]; exact h

theorem mem_dropRangeData (s : Store) (lo hi k : Bytes) (v : Value)
    (h : (k, some v) ∈ dropRangeData s lo hi) : (k, some v) ∈ s :=
  mem_removeKeys _ _ _ _ h

theorem storeWf_dropRangeData {s : Store} (lo hi : Bytes) (h : StoreWf s) :
    StoreWf (dropRangeData s lo hi) :=
  storeWf_removeKeys _ h

/-! ## Claim C1 -/

/-- C1: for every table name, tuple and transaction state, once the tuple
encodes to a key and value, `append` with `is_overwrite = false` fails with
`DuplicatePrimaryKey` when the key is live — leaving the transaction, hence
the stored value at the key, unchanged — and writes the encoded tuple and
returns Ok when the key is absent or when `is_overwrite = true`. -/
theorem append_duplicate_primary_key
    (t : KipTransaction) (table_name : String) (tup : Tuple) (key : Bytes) (value : Value)
    (henc : TableCodec.encode_tuple table_name tup = .ok (key, value)) :
    ((t.tx.get key).isSome = true →
        t.append table_name tup false = (.error .DuplicatePrimaryKey, t)) ∧
    (t.tx.get key = none →
        t.append table_name tup false =
          (.ok (), { t with tx := t.tx.setVal key (some value) })) ∧
    t.append table_name tup true =
      (.ok (), { t with tx := t.tx.setVal key (some value) }) := by
  refine ⟨?_, ?_, ?_⟩
  · intro h
    simp [KipTransaction.append, henc, h]
  · intro h
    simp [KipTransaction.append, henc, h]
  · simp [KipTransaction.append, henc]

theorem append_duplicate_primary_key_witness :
    (txData.tx.get (tupleKeyB "t1" (encDV (DataValue.int32 (some 0))))).isSome = true ∧
    txData.append "t1" (tupFix 0) false =
      (.error .DuplicatePrimaryKey, txData) :=
  ⟨by decide,
   (append_duplicate_primary_key txData "t1" (tupFix 0)
      (tupleKeyB "t1" (encDV (DataValue.int32 (some 0))))
      (Value.tupV [DataValue.int32 (some 0)]) rfl).1 (by decide)⟩

/-! ## Claim C2 -/

/-- C2: for a unique `add_index` call on a key that already stores a
tuple-id list, a differing first stored id yields `DuplicateUniqueValue` with
the transaction (hence the stored entry) unchanged, an equal first id is a
no-op returning Ok, and an absent key gets the encoded entry written. -/
theorem add_index_unique_semantics
    (t : KipTransaction) (table_name : String) (index : Index) (ids : List DataValue) :
    (∀ o rest n rest2,
        t.tx.get (TableCodec.encode_index_key table_name index) =
          some (.idsV (o :: rest)) →
        ids = n :: rest2 →
        ((o ≠ n →
            t.add_index table_name index ids true = .err .DuplicateUniqueValue t) ∧
         (o = n → t.add_index table_name index ids true = .ok t))) ∧
    (t.tx.get (TableCodec.encode_index_key table_name index) = none →
        t.add_index table_name index ids true =
          .ok { t with
                tx := t.tx.setVal (TableCodec.encode_index_key table_name index)
                        (some (.idsV ids)) }) := by
  constructor
  · intro o rest n rest2 hget hids
    subst hids
    constructor
    · intro hne
      simp [KipTransaction.add_index, TableCodec.encode_index, hget,
        TableCodec.decode_index, hne]
    · intro heq
      subst heq
      simp [KipTransaction.add_index, TableCodec.encode_index, hget,
        TableCodec.decode_index]
  · intro hget
    simp [KipTransaction.add_index, TableCodec.encode_index, hget]

theorem add_index_unique_semantics_witness :
    txIdx.tx.get (TableCodec.encode_index_key "t1" idxFix) =
      some (.idsV [DataValue.int32 (some 0)]) ∧
    txIdx.add_index "t1" idxFix [DataValue.int32 (some 1)] true =
      .err .DuplicateUniqueValue txIdx :=
  ⟨by decide,
   ((add_index_unique_semantics txIdx "t1" idxFix [DataValue.int32 (some 1)]).1
      (DataValue.int32 (some 0)) [] (DataValue.int32 (some 1)) [] (by decide)
      rfl).1 (by decide)⟩

/-! ## Claim C9 -/

/-- C9: `add_index` with `is_unique = false` on a key that is already present
reaches the todo branch and panics instead of returning any Result; shown at
a concrete transaction holding the encoded index key. -/
theorem add_index_non_unique_existing_key_panics :
    txIdx.add_index "t1" idxFix [DataValue.int32 (some 1)] false =
      IdxOut.panicked := by
  decide

/-! ## Claim C3 -/

/-- C3 counterexample: creating t1 with the single column a INT PRIMARY KEY
whose ColumnDesc has `is_unique = false` yields the index meta pk_a with
`is_unique = false`, not the `is_unique = true` the claim asserts regardless
of the flag: create_index_meta_for_table copies `col.desc.is_unique`. -/
theorem create_table_pk_meta_not_forced_unique :
    ((KipTransaction.empty.create_table "t1" [pkColumn false] false).2.table "t1").map
        (fun c => c.indexes) =
      some [{ id := 0, column_ids := [0], name := "pk_a", is_unique := false,
              is_primary := true }] ∧
    ((KipTransaction.empty.create_table "t1" [pkColumn false] false).2.table "t1").map
        (fun c => c.indexes) ≠
      some [{ id := 0, column_ids := [0], name := "pk_a", is_unique := true,
              is_primary := true }] := by
  refine ⟨by decide, by decide⟩

/-- C3 (amended): after create_table(t1, [a INT PRIMARY KEY], false)
succeeds, table(t1) returns a catalog whose index-meta sequence is exactly
one entry named pk_a with `is_primary = true` and with `is_unique` equal to
the is_unique flag of the column's ColumnDesc (both flag values shown). -/
theorem create_table_pk_meta_follows_desc :
    (((KipTransaction.empty.create_table "t1" [pkColumn false] false).2.table "t1").map
        (fun c => c.indexes) =
      some [{ id := 0, column_ids := [0], name := "pk_a", is_unique := false,
              is_primary := true }]) ∧
    (((KipTransaction.empty.create_table "t1" [pkColumn true] false).2.table "t1").map
        (fun c => c.indexes) =
      some [{ id := 0, column_ids := [0], name := "pk_a", is_unique := true,
              is_primary := true }]) := by
  refine ⟨by decide, by decide⟩

/-! ## Claim C6 -/

/-- C6 counterexample: binding DROP of a non-table object (here an index)
panics in a todo arm instead of returning `UnsupportedStmt`, refuting both
the error shape and the never-panics part of the claim. -/
theorem bind_drop_non_table_panics :
    Binder.bind (.drop .Index [{ idents := ["i1"] }]) = BOut.panicked := by
  rfl

/-- C6 (amended): only statements outside the recognised variants reach the
catch-all and return `UnsupportedStmt` carrying the original statement text;
Drop of a non-table object, Insert from a non-VALUES source, and Update or
Delete with joins panic in todo or unimplemented arms instead. -/
theorem bind_unsupported_statements
    (s : String) (ot : ObjectType) (names : List ObjectName) (name : ObjectName)
    (cols : List String) (ov : Bool) (tw : TableWithJoins) (asg : Nat)
    (rest : List TableWithJoins) :
    (Binder.bind (.other s) = BOut.err (.UnsupportedStmt s)) ∧
    (ot ≠ ObjectType.Table → Binder.bind (.drop ot names) = BOut.panicked) ∧
    (Binder.bind (.insert name cols SetExprS.other ov) = BOut.panicked) ∧
    (tw.joins ≠ [] → Binder.bind (.update tw asg) = BOut.panicked) ∧
    (tw.joins ≠ [] → Binder.bind (.delete (tw :: rest)) = BOut.panicked) := by
  refine ⟨rfl, ?_, rfl, ?_, ?_⟩
  · intro h
    cases ot with
    | Table => exact absurd rfl h
    | Index => rfl
    | Schema => rfl
    | View => rfl
  · intro h
    simp [Binder.bind, List.isEmpty_iff, h]
  · intro h
    simp [Binder.bind, List.isEmpty_iff, h]

theorem bind_unsupported_statements_witness :
    Binder.bind (.other "EXPLAIN SELECT 1") =
      BOut.err (.UnsupportedStmt "EXPLAIN SELECT 1") ∧
    Binder.bind (.update { relation := "t1", joins := [()] } 0) = BOut.panicked ∧
    Binder.bind (.delete [{ relation := "t1", joins := [()] }]) = BOut.panicked :=
  ⟨(bind_unsupported_statements "EXPLAIN SELECT 1" .Index [] { idents := [] } [] false
      { relation := "t1", joins := [()] } 0 []).1,
   (bind_unsupported_statements "EXPLAIN SELECT 1" .Index [] { idents := [] } [] false
      { relation := "t1", joins := [()] } 0 []).2.2.2.1 (by simp),
   (bind_unsupported_statements "EXPLAIN SELECT 1" .Index [] { idents := [] } [] false
      { relation := "t1", joins := [()] } 0 []).2.2.2.2 (by simp)⟩

/-! ## Claim C7 -/

/-- Post-order id assignment for the select lowering: a successful build from
counter c returns a tree of id-carrying nodes whose count advances the
counter, whose root holds the last id taken, and whose children hold
strictly smaller ids than their parents. -/
theorem build_select_post_order :
    ∀ (m : Nat) (sp : LogicalSelectPlan), sizeOf sp ≤ m →
      ∀ c op c2, build_select_logical_plan c sp = .ok (op, c2) →
        c2 = c + countNodes op ∧ rootId op + 1 = c2 ∧ postOrdered op = true ∧
          0 < countNodes op := by
  intro m
  induction m with
  | zero =>
    intro sp hsp
    exfalso
    cases sp with
    | node op childs => simp at hsp
  | succ m ih =>
    intro sp hsp c op c2 hbuild
    cases sp with
    | node oper childs =>
      cases oper with
      | project exprs =>
        cases childs with
        | nil => simp [build_select_logical_plan] at hbuild
        | cons child rest =>
          cases hc : build_select_logical_plan c child with
          | error e => simp [build_select_logical_plan, hc] at hbuild
          | ok pr =>
            obtain ⟨input, c1⟩ := pr
            simp only [build_select_logical_plan, hc, next_plan_id] at hbuild
            have hop : PhysicalOperator.projection c1 exprs input = op ∧ c1 + 1 = c2 := by
              have h2 := Except.ok.inj hbuild
              exact ⟨congrArg Prod.fst h2, congrArg Prod.snd h2⟩
            have hsz : sizeOf child ≤ m := by
              simp at hsp
              omega
            have IH := ih child hsz c input c1 hc
            rw [← hop.1, ← hop.2]
            refine ⟨?_, ?_, ?_, ?_⟩
            · simp [countNodes]
              omega
            · simp [rootId]
            · simp only [postOrdered, Bool.and_eq_true, decide_eq_true_eq]
              refine ⟨IH.2.2.1, ?_⟩
              have h21 := IH.2.1
              omega
            · simp [countNodes]
      | scan base =>
        simp only [build_select_logical_plan, next_plan_id] at hbuild
        have h2 := Except.ok.inj hbuild
        have hop : PhysicalOperator.tableScan c base = op := congrArg Prod.fst h2
        have hc2 : c + 1 = c2 := congrArg Prod.snd h2
        rw [← hop, ← hc2]
        simp [countNodes, rootId, postOrdered]
      | filter => simp [build_select_logical_plan] at hbuild
      | join => simp [build_select_logical_plan] at hbuild
      | aggregate => simp [build_select_logical_plan] at hbuild
      | sort => simp [build_select_logical_plan] at hbuild
      | limit => simp [build_select_logical_plan] at hbuild

/-- C7 counterexample: lowering a CreateTable plan from counter 0 leaves the
counter at 0 — the plan-id counter is not incremented for the CreateTable
physical node (nor does the node carry an id), contradicting the claim that
it is incremented exactly once per physical node created. -/
theorem build_plan_create_table_no_increment :
    build_plan 0 (LogicalPlan.createTable { table_name := "t1", columns := [] }) ≠
      .ok (.createTableP "t1" [], 1) ∧
    build_plan 0 (LogicalPlan.createTable { table_name := "t1", columns := [] }) =
      .ok (.createTableP "t1" [], 0) := by
  refine ⟨?_, rfl⟩
  intro h
  rw [show build_plan 0 (LogicalPlan.createTable { table_name := "t1", columns := [] }) =
      Except.ok ((.createTableP "t1" [], 0) : PhysicalOperator × Nat) from rfl] at h
  simp at h

/-- C7 (amended): within select lowering the plan-id counter is incremented
exactly once per Projection or TableScan node and ids are assigned in
post-order, every child id strictly below its parent's; CreateTable and
Insert plans are lowered to nodes that carry no plan id and leave the counter
unchanged. -/
theorem plan_id_discipline
    (sp : LogicalSelectPlan) (c c2 : Nat) (op : PhysicalOperator)
    (p : CreateTableOp) (q : InsertOp)
    (hsel : build_select_logical_plan c sp = .ok (op, c2)) :
    (c2 = c + countNodes op ∧ postOrdered op = true) ∧
    build_plan c (.createTable p) = .ok (.createTableP p.table_name p.columns, c) ∧
    build_plan c (.insert q) = .ok (.insertP q.table q.col_idxs q.cols, c) := by
  have h := build_select_post_order (sizeOf sp) sp (Nat.le_refl _) c op c2 hsel
  exact ⟨⟨h.1, h.2.2.1⟩, rfl, rfl⟩

theorem plan_id_discipline_witness :
    build_select_logical_plan 0 (.node (.project []) [.node (.scan "t1") []]) =
      .ok (.projection 1 [] (.tableScan 0 "t1"), 2) ∧
    (2 = 0 + countNodes (PhysicalOperator.projection 1 [] (.tableScan 0 "t1")) ∧
     postOrdered (PhysicalOperator.projection 1 [] (.tableScan 0 "t1")) = true) :=
  ⟨rfl,
   (plan_id_discipline (.node (.project []) [.node (.scan "t1") []]) 0 2
      (.projection 1 [] (.tableScan 0 "t1")) { table_name := "t1", columns := [] }
      { table := "t1", col_idxs := [], cols := 0 } rfl).1⟩

/-! ## Claim C10 -/

theorem decode_root_table_error_codec (v : Value) (e : StorageError)
    (h : TableCodec.decode_root_table v = .error e) : e = StorageError.Codec := by
  cases v with
  | rootV n => simp [TableCodec.decode_root_table] at h
  | colV c => simp [TableCodec.decode_root_table] at h; exact h.symm
  | metaV m => simp [TableCodec.decode_root_table] at h; exact h.symm
  | tupV vs => simp [TableCodec.decode_root_table] at h; exact h.symm
  | idsV ids => simp [TableCodec.decode_root_table] at h; exact h.symm

/-- C10: the root-family scan of show_tables never propagates an iterator
failure: when the event stream errors partway, the loop stops silently and
the names decoded so far are returned as Ok — possibly a strict prefix of the
stored tables — and any error show_tables does return is a decode (codec)
error of a present value, never an iterator (engine) error. -/
theorem show_tables_swallows_iterator_errors :
    (∀ pre post, IterEvent.errEv ∉ pre →
        (∀ k v, IterEvent.item (k, some v) ∈ pre → ∃ n, v = Value.rootV n) →
        show_tables_events (pre ++ IterEvent.errEv :: post) =
          .ok (rootItemNames pre)) ∧
    (∀ evs e, show_tables_events evs = .error e → e = StorageError.Codec) := by
  constructor
  · intro pre post hclean hroot
    induction pre with
    | nil => rfl
    | cons ev rest ih =>
      cases ev with
      | errEv => exact absurd (List.mem_cons_self _ _) hclean
      | item e =>
        obtain ⟨k, ov⟩ := e
        cases ov with
        | none =>
          have := ih (fun h => hclean (List.mem_cons_of_mem _ h))
            (fun k2 v2 h => hroot k2 v2 (List.mem_cons_of_mem _ h))
          simpa [show_tables_events, rootItemNames] using this
        | some v =>
          obtain ⟨n, hn⟩ := hroot k v (List.mem_cons_self _ _)
          subst hn
          have h2 := ih (fun h => hclean (List.mem_cons_of_mem _ h))
            (fun k2 v2 h => hroot k2 v2 (List.mem_cons_of_mem _ h))
          have hstep : show_tables_events
              ((IterEvent.item (k, some (Value.rootV n)) :: rest) ++
                IterEvent.errEv :: post) =
              (show_tables_events (rest ++ IterEvent.errEv :: post)).map
                (fun ns => n :: ns) := rfl
          have hnames : rootItemNames (IterEvent.item (k, some (Value.rootV n)) :: rest)
              = n :: rootItemNames rest := rfl
          rw [hstep, h2, hnames]
          rfl
  · intro evs
    induction evs with
    | nil => intro e h; simp [show_tables_events] at h
    | cons ev rest ih =>
      intro e h
      cases ev with
      | errEv => simp [show_tables_events] at h
      | item p =>
        obtain ⟨k, ov⟩ := p
        cases ov with
        | none =>
          simp only [show_tables_events] at h
          exact ih e h
        | some v =>
          simp only [show_tables_events] at h
          cases hdec : TableCodec.decode_root_table v with
          | error e2 =>
            rw [hdec] at h
            have he : e2 = e := by
              simpa using h
            rw [← he]
            exact decode_root_table_error_codec v e2 hdec
          | ok n =>
            rw [hdec] at h
            cases hrest : show_tables_events rest with
            | error e2 =>
              rw [hrest] at h
              have he : e2 = e := by
                simpa [Except.map] using h
              rw [← he]
              exact ih e2 hrest
            | ok ns =>
              rw [hrest] at h
              simp [Except.map] at h

theorem show_tables_swallows_iterator_errors_witness :
    show_tables_events
        ([IterEvent.item (rootKey "t1", some (Value.rootV "t1"))] ++
          IterEvent.errEv ::
            [IterEvent.item (rootKey "t2", some (Value.rootV "t2"))]) =
      .ok ["t1"] :=
  show_tables_swallows_iterator_errors.1
    [IterEvent.item (rootKey "t1", some (Value.rootV "t1"))]
    [IterEvent.item (rootKey "t2", some (Value.rootV "t2"))]
    (by simp)
    (fun k v h => by
      rw [List.mem_singleton] at h
      refine ⟨"t1", ?_⟩
      cases h
      rfl)

/-! ## Claim C4 -/

theorem runIter_zero_offset :
    ∀ (es : List (Bytes × Option Value)) (fuel k : Nat) (π : Projections)
      (cols : List ColumnCatalog), es.length < fuel →
      runIter fuel { offset := 0, limit := some k, projections := π,
                     all_columns := cols, iter := es } =
        ((es.filterMap (fun e => e.2)).map
          (fun v => projectTuple π (TableCodec.decode_tuple cols v))).take k := by
  intro es
  induction es with
  | nil =>
    intro fuel k π cols h
    cases fuel with
    | zero => omega
    | succ f =>
      cases k with
      | zero => rfl
      | succ k2 => rfl
  | cons e rest ih =>
    intro fuel k π cols h
    cases fuel with
    | zero => omega
    | succ f =>
      obtain ⟨b, ov⟩ := e
      cases ov with
      | none =>
        have hstep :
            runIter (f + 1) { offset := 0, limit := some k, projections := π,
                              all_columns := cols, iter := (b, none) :: rest } =
            runIter (f + 1) { offset := 0, limit := some k, projections := π,
                              all_columns := cols, iter := rest } := by
          cases k with
          | zero => rfl
          | succ k2 => rfl
        rw [hstep, ih (f + 1) k π cols (by simp at h; omega)]
        rfl
      | some v =>
        cases k with
        | zero => rfl
        | succ k2 =>
          have hstep :
              runIter (f + 1) { offset := 0, limit := some (k2 + 1), projections := π,
                                all_columns := cols, iter := (b, some v) :: rest } =
              projectTuple π (TableCodec.decode_tuple cols v) ::
                runIter f { offset := 0, limit := some k2, projections := π,
                            all_columns := cols, iter := rest } := rfl
          rw [hstep, ih f k2 π cols (by simp at h; omega)]
          rfl

theorem runIter_offset_norm (es : List (Bytes × Option Value)) (n k fuel : Nat)
    (π : Projections) (cols : List ColumnCatalog) :
    runIter fuel { offset := n, limit := some k, projections := π,
                   all_columns := cols, iter := es } =
      runIter fuel { offset := 0, limit := some k, projections := π,
                     all_columns := cols, iter := es.drop n } := by
  cases fuel with
  | zero => rfl
  | succ f => rfl

/-- C4: read(T, (Some n, Some k), pi) fails TableNotFound exactly when the
catalog is absent; otherwise it opens a forward iterator over T's tuple
family and driving it yields the live tuples that follow the first n physical
entries, in physical order, each decoded and projected by pi, truncated to at
most k tuples (so at most k are yielded). -/
theorem read_offset_limit
    (t : KipTransaction) (name : String) (n k : Nat) (π : Projections) :
    (t.table name = none →
        t.read name (some n, some k) π = .error .TableNotFound) ∧
    (∀ cat es, t.table name = some cat →
        es = rangeEntries t.tx (TableCodec.tuple_bound name).1
               (TableCodec.tuple_bound name).2 →
        t.read name (some n, some k) π =
          .ok { offset := n, limit := some k, projections := π,
                all_columns := cat.all_columns, iter := es } ∧
        runIter (es.length + 1)
            { offset := n, limit := some k, projections := π,
              all_columns := cat.all_columns, iter := es } =
          (((es.drop n).filterMap (fun e => e.2)).map
            (fun v => projectTuple π (TableCodec.decode_tuple cat.all_columns v))).take k ∧
        (runIter (es.length + 1)
            { offset := n, limit := some k, projections := π,
              all_columns := cat.all_columns, iter := es }).length ≤ k) := by
  constructor
  · intro h
    simp [KipTransaction.read, h]
  · intro cat es hcat hes
    have hrun : runIter (es.length + 1)
        { offset := n, limit := some k, projections := π,
          all_columns := cat.all_columns, iter := es } =
        (((es.drop n).filterMap (fun e => e.2)).map
          (fun v => projectTuple π (TableCodec.decode_tuple cat.all_columns v))).take k := by
      rw [runIter_offset_norm]
      exact runIter_zero_offset (es.drop n) (es.length + 1) k π cat.all_columns
        (by simp [List.length_drop]; omega)
    refine ⟨?_, hrun, ?_⟩
    · simp [KipTransaction.read, hcat, hes]
    · rw [hrun]
      simp [List.length_take]

theorem read_offset_limit_witness :
    txData.table "t1" = some
      { name := "t1", columns := [{ (pkColumn false) with id := some 0 }],
        indexes := [{ id := 0, column_ids := [0], name := "pk_a",
                      is_unique := false, is_primary := true }] } ∧
    (txData.read "t1" (some 1, some 1) [ScalarExpression.columnRef (pkColumn false)]).map
        (fun it => runIter (it.iter.length + 1) it) =
      .ok [{ id := some (DataValue.int32 (some 1)),
             columns := [pkColumn false],
             values := [DataValue.int32 (some 1)] }] := by
  have hcat : txData.table "t1" = some
      { name := "t1", columns := [{ (pkColumn false) with id := some 0 }],
        indexes := [{ id := 0, column_ids := [0], name := "pk_a",
                      is_unique := false, is_primary := true }] } := by decide
  refine ⟨hcat, ?_⟩
  have h := (read_offset_limit txData "t1" 1 1
      [ScalarExpression.columnRef (pkColumn false)]).2
      { name := "t1", columns := [{ (pkColumn false) with id := some 0 }],
        indexes := [{ id := 0, column_ids := [0], name := "pk_a",
                      is_unique := false, is_primary := true }] }
      (rangeEntries txData.tx (TableCodec.tuple_bound "t1").1
        (TableCodec.tuple_bound "t1").2) hcat rfl
  rw [h.1]
  decide

/-! ## Claim C8 -/

theorem idxMetaKey_inj (t : String) (a b : Nat) (h : idxMetaKey t a = idxMetaKey t b) :
    a = b := by
  simp [idxMetaKey] at h
  exact h

theorem colKey_inj (t : String) (a b : Nat) (h : colKey t a = colKey t b) : a = b := by
  simp [colKey] at h
  exact h

theorem rootKey_ne_colKey (t t2 : String) (cid : Nat) : rootKey t ≠ colKey t2 cid := by
  simp [rootKey, colKey, tablePre, List.cons_append]

theorem rootKey_ne_idxMetaKey (t t2 : String) (iid : Nat) :
    rootKey t ≠ idxMetaKey t2 iid := by
  simp [rootKey, idxMetaKey, tablePre, List.cons_append]

theorem colKey_ne_idxMetaKey (t : String) (a b : Nat) : colKey t a ≠ idxMetaKey t b := by
  simp [colKey, idxMetaKey]

theorem tableCatalogNew_spec (name : String) (columns : List ColumnCatalog)
    (cat : TableCatalog) (h : TableCatalog.new name columns = .ok cat) :
    cat.name = name ∧
    cat.columns = columns.enum.map (fun p => { p.2 with id := some p.1 }) ∧
    cat.indexes = [] := by
  by_cases h1 : columns.isEmpty
  · simp [TableCatalog.new, h1] at h
  · by_cases h2 : (columns.map (fun c => c.name)).Nodup
    · rw [TableCatalog.new] at h
      rw [if_neg (by simpa using h1), if_pos h2] at h
      rw [← Except.ok.inj h]
      exact ⟨rfl, rfl, rfl⟩
    · simp [TableCatalog.new, h1, h2] at h

theorem enumFrom_assign_ids :
    ∀ (cols : List ColumnCatalog) (i : Nat),
      ((List.enumFrom i cols).map
          (fun p => { p.2 with id := some p.1 })).filterMap (fun c => c.id) =
        List.range' i cols.length := by
  intro cols
  induction cols with
  | nil => intro i; rfl
  | cons c rest ih =>
    intro i
    simp only [List.enumFrom, List.map_cons, List.filterMap_cons, List.length_cons,
      List.range']
    rw [ih (i + 1)]

theorem enumFrom_assign_filter_len :
    ∀ (cols : List ColumnCatalog) (i : Nat),
      (((List.enumFrom i cols).map
          (fun p => { p.2 with id := some p.1 })).filter
            (fun c => c.desc.is_index)).length =
        (cols.filter (fun c => c.desc.is_index)).length := by
  intro cols
  induction cols with
  | nil => intro i; rfl
  | cons c rest ih =>
    intro i
    cases h : c.desc.is_index with
    | false => simp [List.enumFrom, List.filter_cons, h, ih (i + 1)]
    | true => simp [List.enumFrom, List.filter_cons, h, ih (i + 1)]

theorem enum_assign_isSome (cols : List ColumnCatalog) :
    ∀ c ∈ cols.enum.map (fun p => { p.2 with id := some p.1 }), (c.id).isSome = true := by
  intro c hc
  obtain ⟨p, _, hp⟩ := List.mem_map.1 hc
  rw [← hp]
  rfl

theorem cacheGet_put_self (c : Cache) (n : String) (cat : TableCatalog) :
    cacheGet (cachePut c n cat) n = some cat := by
  simp [cacheGet, cachePut, List.find?]

theorem metaLoop_spec (tname : String) :
    ∀ (cols : List ColumnCatalog) (s : Store) (table : TableCatalog),
      (∀ m ∈ table.indexes, m.id < table.indexes.length) →
      (∀ m ∈ table.indexes, s.get (idxMetaKey tname m.id) = some (.metaV m)) →
      (metaLoop tname cols s table).2.columns = table.columns ∧
      (metaLoop tname cols s table).2.name = table.name ∧
      (metaLoop tname cols s table).2.indexes.length =
        table.indexes.length + (cols.filter (fun c => (c.id).isSome)).length ∧
      (∀ m ∈ (metaLoop tname cols s table).2.indexes,
          (metaLoop tname cols s table).1.get (idxMetaKey tname m.id) =
            some (.metaV m)) ∧
      (∀ k, (∀ iid, k ≠ idxMetaKey tname iid) →
          (metaLoop tname cols s table).1.get k = s.get k) := by
  intro cols
  induction cols with
  | nil =>
    intro s table hids hwr
    exact ⟨rfl, rfl, by simp [metaLoop], hwr, fun k _ => rfl⟩
  | cons col rest ih =>
    intro s table hids hwr
    cases hcid : col.id with
    | none =>
      have hstep : metaLoop tname (col :: rest) s table = metaLoop tname rest s table := by
        simp [metaLoop, hcid]
      rw [hstep]
      have h := ih s table hids hwr
      refine ⟨h.1, h.2.1, ?_, h.2.2.2.1, h.2.2.2.2⟩
      rw [h.2.2.1]
      simp [List.filter_cons, hcid, Option.isSome]
    | some cid =>
      set len := table.indexes.length with hlen
      set m2 : IndexMeta :=
        { id := len, column_ids := [cid],
          name := (if col.desc.is_primary then "pk" else "uk") ++ "_" ++ col.name,
          is_unique := col.desc.is_unique, is_primary := col.desc.is_primary }
        with hm2
      set table2 : TableCatalog := { table with indexes := table.indexes ++ [m2] }
        with htable2
      set s2 : Store := s.setVal (idxMetaKey tname len) (some (.metaV m2)) with hs2
      have hstep : metaLoop tname (col :: rest) s table = metaLoop tname rest s2 table2 := by
        simp [metaLoop, hcid, TableCatalog.add_index_meta, TableCodec.encode_index_meta,
          hm2, htable2, hs2, hlen]
      have hids2 : ∀ m ∈ table2.indexes, m.id < table2.indexes.length := by
        intro m hm
        rw [htable2] at hm ⊢
        simp only [List.mem_append, List.mem_singleton] at hm
        rcases hm with hm | hm
        · have := hids m hm
          simp only [List.length_append, List.length_singleton]
          omega
        · rw [hm, hm2]
          simp only [List.length_append, List.length_singleton]
          omega
      have hwr2 : ∀ m ∈ table2.indexes, s2.get (idxMetaKey tname m.id) = some (.metaV m) := by
        intro m hm
        rw [htable2] at hm
        simp only [List.mem_append, List.mem_singleton] at hm
        rcases hm with hm | hm
        · have hmlt := hids m hm
          have hne : idxMetaKey tname m.id ≠ idxMetaKey tname len := by
            intro hEq
            have := idxMetaKey_inj tname m.id len hEq
            omega
          rw [hs2, get_setVal_ne _ _ _ _ hne]
          exact hwr m hm
        · rw [hm, hm2, hs2]
          rw [get_setVal_self]
      rw [hstep]
      have h := ih s2 table2 hids2 hwr2
      refine ⟨?_, ?_, ?_, h.2.2.2.1, ?_⟩
      · rw [h.1, htable2]
      · rw [h.2.1, htable2]
      · rw [h.2.2.1, htable2]
        have hfc : ((col :: rest).filter (fun c => (c.id).isSome)).length =
            (rest.filter (fun c => (c.id).isSome)).length + 1 := by
          simp [List.filter_cons, hcid]
        rw [hfc]
        simp only [List.length_append, List.length_singleton]
        omega
      · intro k hk
        rw [h.2.2.2.2 k hk, hs2, get_setVal_ne _ _ _ _ (hk len)]

theorem writeColumns_spec (tname : String) :
    ∀ (cols : List ColumnCatalog) (s : Store),
      (∀ c ∈ cols, (c.id).isSome = true) →
      (cols.filterMap (fun c => c.id)).Nodup →
      ∃ s2, writeColumns s tname cols = .ok s2 ∧
        (∀ c ∈ cols, ∀ cid, c.id = some cid →
            s2.get (colKey tname cid) = some (.colV c)) ∧
        (∀ k, (∀ cid, cid ∈ cols.filterMap (fun c => c.id) → k ≠ colKey tname cid) →
            s2.get k = s.get k) := by
  intro cols
  induction cols with
  | nil =>
    intro s _ _
    exact ⟨s, rfl, by simp, fun k _ => rfl⟩
  | cons c rest ih =>
    intro s hsome hnodup
    obtain ⟨cid, hcid⟩ := Option.isSome_iff_exists.1 (hsome c (List.mem_cons_self _ _))
    have hfm : (c :: rest).filterMap (fun c => c.id) =
        cid :: rest.filterMap (fun c => c.id) := by
      simp [List.filterMap_cons, hcid]
    rw [hfm] at hnodup
    have hnotin := (List.nodup_cons.1 hnodup).1
    have hnodup2 := (List.nodup_cons.1 hnodup).2
    have hstep : writeColumns s tname (c :: rest) =
        writeColumns (s.setVal (colKey tname cid) (some (.colV c))) tname rest := by
      simp [writeColumns, TableCodec.encode_column, hcid]
    obtain ⟨s2, hwc, h1, h2⟩ := ih (s.setVal (colKey tname cid) (some (.colV c)))
      (fun c2 hc2 => hsome c2 (List.mem_cons_of_mem _ hc2)) hnodup2
    refine ⟨s2, by rw [hstep]; exact hwc, ?_, ?_⟩
    · intro c2 hc2 cid2 hcid2
      rcases List.mem_cons.1 hc2 with hc2 | hc2
      · subst hc2
        rw [hcid] at hcid2
        have : cid = cid2 := Option.some.inj hcid2
        subst this
        rw [h2 (colKey tname cid) ?_, get_setVal_self]
        intro cid3 hcid3 hEq
        exact hnotin (colKey_inj tname cid cid3 hEq ▸ hcid3)
      · exact h1 c2 hc2 cid2 hcid2
    · intro k hk
      rw [h2 k (fun cid2 h2m => hk cid2 (hfm ▸ List.mem_cons_of_mem _ h2m))]
      exact get_setVal_ne _ _ _ _ (hk cid (hfm ▸ List.mem_cons_self _ _))

/-- C8: create_table on a live root key fails TableExists when if_not_exists
is off and returns Ok(name) without touching the transaction when it is on;
on an absent root key (and a well-formed column list) it writes the root
entry, one column entry per column, one index-meta entry per indexed column,
and seeds the catalog cache with the constructed catalog. -/
theorem create_table_semantics
    (t : KipTransaction) (name : String) (columns : List ColumnCatalog) :
    ((t.tx.get (TableCodec.encode_root_table name).1).isSome = true →
        t.create_table name columns false = (.error .TableExists, t) ∧
        t.create_table name columns true = (.ok name, t)) ∧
    (∀ cat, t.tx.get (TableCodec.encode_root_table name).1 = none →
        TableCatalog.new name columns = .ok cat →
        ∃ t2 cat2,
          t.create_table name columns false = (.ok name, t2) ∧
          cat2 = (create_index_meta_for_table
                   (t.tx.setVal (rootKey name) (some (.rootV name))) cat).2 ∧
          t2.tx.get (rootKey name) = some (.rootV name) ∧
          (∀ c ∈ cat2.columns, ∀ cid, c.id = some cid →
              t2.tx.get (colKey name cid) = some (.colV c)) ∧
          (∀ m ∈ cat2.indexes, t2.tx.get (idxMetaKey name m.id) = some (.metaV m)) ∧
          cat2.indexes.length = (columns.filter (fun c => c.desc.is_index)).length ∧
          cacheGet t2.cache name = some cat2) := by
  constructor
  · intro h
    have h2 : (t.tx.get (rootKey name)).isSome = true := h
    constructor <;> simp [KipTransaction.create_table, TableCodec.encode_root_table, h2]
  · intro cat hget hnew
    have hget2 : t.tx.get (rootKey name) = none := hget
    obtain ⟨hname, hcols, hidx⟩ := tableCatalogNew_spec name columns cat hnew
    have hvac1 : ∀ m ∈ cat.indexes, m.id < cat.indexes.length := by simp [hidx]
    have hvac2 : ∀ m ∈ cat.indexes,
        (t.tx.setVal (rootKey name) (some (.rootV name))).get (idxMetaKey name m.id) =
          some (.metaV m) := by simp [hidx]
    have hm := metaLoop_spec name (cat.all_columns.filter (fun c => c.desc.is_index))
      (t.tx.setVal (rootKey name) (some (.rootV name))) cat hvac1 hvac2
    cases hml : metaLoop name (cat.all_columns.filter (fun c => c.desc.is_index))
        (t.tx.setVal (rootKey name) (some (.rootV name))) cat with
    | mk tx2v cat2v =>
    rw [hml] at hm
    dsimp only at hm
    have hunfold : create_index_meta_for_table
        (t.tx.setVal (rootKey name) (some (.rootV name))) cat = (tx2v, cat2v) := by
      rw [create_index_meta_for_table, hname, hml]
    have hsome2 : ∀ c ∈ cat2v.columns, (c.id).isSome = true := by
      rw [hm.1, hcols]
      exact enum_assign_isSome columns
    have hnodup2 : (cat2v.columns.filterMap (fun c => c.id)).Nodup := by
      rw [hm.1, hcols]
      have henum : columns.enum = List.enumFrom 0 columns := rfl
      rw [henum, enumFrom_assign_ids columns 0]
      exact List.nodup_range' _ _
    obtain ⟨tx3, hwc, hcolw, hunt⟩ :=
      writeColumns_spec name cat2v.columns tx2v hsome2 hnodup2
    have heq : t.create_table name columns false =
        (.ok name, { tx := tx3, cache := cachePut t.cache name cat2v }) := by
      rw [KipTransaction.create_table]
      simp only [TableCodec.encode_root_table, hget2, Option.isSome_none,
        Bool.false_eq_true, if_false, hnew, hunfold, hwc]
    refine ⟨{ tx := tx3, cache := cachePut t.cache name cat2v }, cat2v, heq,
      by rw [hunfold], ?_, ?_, ?_, ?_, ?_⟩
    · show tx3.get (rootKey name) = some (.rootV name)
      rw [hunt (rootKey name) (fun cid _ => rootKey_ne_colKey name name cid),
        hm.2.2.2.2 (rootKey name) (fun iid => rootKey_ne_idxMetaKey name name iid),
        get_setVal_self]
    · exact hcolw
    · intro m hmem
      show tx3.get (idxMetaKey name m.id) = some (.metaV m)
      rw [hunt (idxMetaKey name m.id)
        (fun cid _ => (colKey_ne_idxMetaKey name cid m.id).symm)]
      exact hm.2.2.2.1 m hmem
    · rw [hm.2.2.1, hidx]
      have hall : ∀ c ∈ cat.all_columns.filter (fun c => c.desc.is_index),
          ((c.id).isSome) = true := by
        intro c hc
        have hc2 := List.mem_of_mem_filter hc
        rw [show cat.all_columns = cat.columns from rfl, hcols] at hc2
        exact enum_assign_isSome columns c hc2
      rw [List.filter_eq_self.2 hall]
      have henum : columns.enum = List.enumFrom 0 columns := rfl
      rw [show cat.all_columns = cat.columns from rfl, hcols, henum]
      simp only [List.length_nil, Nat.zero_add]
      exact enumFrom_assign_filter_len columns 0
    · exact cacheGet_put_self t.cache name cat2v

theorem create_table_semantics_witness :
    KipTransaction.empty.tx.get (TableCodec.encode_root_table "t1").1 = none ∧
    TableCatalog.new "t1" [pkColumn false] =
      .ok { name := "t1", columns := [{ (pkColumn false) with id := some 0 }],
            indexes := [] } ∧
    ∃ t2 cat2,
      KipTransaction.empty.create_table "t1" [pkColumn false] false = (.ok "t1", t2) ∧
      cat2 = (create_index_meta_for_table
               (KipTransaction.empty.tx.setVal (rootKey "t1") (some (.rootV "t1")))
               { name := "t1", columns := [{ (pkColumn false) with id := some 0 }],
                 indexes := [] }).2 ∧
      t2.tx.get (rootKey "t1") = some (.rootV "t1") ∧
      (∀ c ∈ cat2.columns, ∀ cid, c.id = some cid →
          t2.tx.get (colKey "t1" cid) = some (.colV c)) ∧
      (∀ m ∈ cat2.indexes, t2.tx.get (idxMetaKey "t1" m.id) = some (.metaV m)) ∧
      cat2.indexes.length =
        (([pkColumn false] : List ColumnCatalog).filter
          (fun c => c.desc.is_index)).length ∧
      cacheGet t2.cache "t1" = some cat2 :=
  ⟨rfl, by decide,
   (create_table_semantics KipTransaction.empty "t1" [pkColumn false]).2
     { name := "t1", columns := [{ (pkColumn false) with id := some 0 }],
       indexes := [] }
     rfl (by decide)⟩

/-! ## Claim C5 -/

theorem mem_liveKeysInRange (s : Store) (lo hi k : Bytes) (v : Value)
    (hk : inRangeB lo hi k = true) (hget : s.get k = some v) :
    k ∈ liveKeysInRange s lo hi := by
  unfold liveKeysInRange rangeEntries
  refine List.mem_filterMap.2 ⟨(k, some v), List.mem_filter.2
    ⟨get_eq_some_mem s k v hget, hk⟩, by simp⟩

theorem colCollectGo_all_tombstone :
    ∀ (es : List (Bytes × Option Value)), (∀ e ∈ es, e.2 = none) →
      colCollectGo (es.map IterEvent.item) = .ok [] := by
  intro es
  induction es with
  | nil => intro _; rfl
  | cons e rest ih =>
    intro h
    obtain ⟨k, ov⟩ := e
    have he := h (k, ov) (List.mem_cons_self _ _)
    simp only at he
    subst he
    simpa [colCollectGo] using ih (fun e2 h2 => h (e2) (List.mem_cons_of_mem _ h2))

theorem show_tables_events_mem :
    ∀ (es : List (Bytes × Option Value)) (names : List String) (n : String),
      show_tables_events (es.map IterEvent.item) = .ok names → n ∈ names →
      ∃ k, (k, some (Value.rootV n)) ∈ es := by
  intro es
  induction es with
  | nil =>
    intro names n h hmem
    have : names = ([] : List String) := by
      simpa [show_tables_events] using h.symm
    rw [this] at hmem
    simp at hmem
  | cons e rest ih =>
    intro names n h hmem
    obtain ⟨k, ov⟩ := e
    cases ov with
    | none =>
      obtain ⟨k2, hk2⟩ := ih names n (by simpa [show_tables_events] using h) hmem
      exact ⟨k2, List.mem_cons_of_mem _ hk2⟩
    | some v =>
      cases hv : v with
      | rootV n2 =>
        subst hv
        simp only [List.map_cons, show_tables_events, TableCodec.decode_root_table] at h
        cases hrec : show_tables_events (rest.map IterEvent.item) with
        | error e2 => rw [hrec] at h; simp [Except.map] at h
        | ok ns =>
          rw [hrec] at h
          have hnames : n2 :: ns = names := by simpa [Except.map] using h
          rw [← hnames] at hmem
          rcases List.mem_cons.1 hmem with hEq | hmem2
          · exact ⟨k, by rw [hEq]; exact List.mem_cons_self _ _⟩
          · obtain ⟨k2, hk2⟩ := ih ns n hrec hmem2
            exact ⟨k2, List.mem_cons_of_mem _ hk2⟩
      | colV c =>
        subst hv
        simp [show_tables_events, TableCodec.decode_root_table] at h
      | metaV m =>
        subst hv
        simp [show_tables_events, TableCodec.decode_root_table] at h
      | tupV vs =>
        subst hv
        simp [show_tables_events, TableCodec.decode_root_table] at h
      | idsV ids =>
        subst hv
        simp [show_tables_events, TableCodec.decode_root_table] at h

theorem cacheGet_remove_self (c : Cache) (n : String) :
    cacheGet (cacheRemove c n) n = none := by
  unfold cacheGet cacheRemove
  induction c with
  | nil => rfl
  | cons e rest ih =>
    by_cases h : e.1 = n
    · simp [List.filter_cons, h, ih]
    · simp [List.filter_cons, h, List.find?, ih]

/-- C5: after drop_table(T) inside a transaction whose store has sorted keys
and whose root family is coherent for T, every codec key of T in all five
families (tuples, index entries, index metas, columns, root) reads back as
absent, show_tables no longer lists T, and a subsequent read(T, ...) in the
same transaction fails TableNotFound. -/
theorem drop_table_removes_table
    (t : KipTransaction) (name : String)
    (hwf : StoreWf t.tx)
    (hroot : ∀ e ∈ t.tx, e.2 = some (Value.rootV name) → e.1 = rootKey name) :
    (t.drop_table name).tx.get (rootKey name) = none ∧
    (∀ cid, cid < BIG → (t.drop_table name).tx.get (colKey name cid) = none) ∧
    (∀ iid, iid < BIG → (t.drop_table name).tx.get (idxMetaKey name iid) = none) ∧
    (∀ iid vb, iid < BIG → (t.drop_table name).tx.get (idxKeyB name iid vb) = none) ∧
    (∀ dv, (t.drop_table name).tx.get (tupleKeyB name (encDV dv)) = none) ∧
    (∀ names, (t.drop_table name).show_tables = .ok names → name ∉ names) ∧
    (∀ bounds π, (t.drop_table name).read name bounds π = .error .TableNotFound) := by
  set s1 := dropRangeData t.tx (TableCodec.tuple_bound name).1
    (TableCodec.tuple_bound name).2 with hs1
  set s2 := dropRangeData s1 (TableCodec.all_index_bound name).1
    (TableCodec.all_index_bound name).2 with hs2
  set colks := liveKeysInRange s2 (TableCodec.columns_bound name).1
    (TableCodec.columns_bound name).2 with hcolks
  set s3 := removeKeys s2 colks with hs3
  set s4 := s3.setVal (rootKey name) none with hs4
  have htx : (t.drop_table name).tx = s4 := rfl
  have hcache : (t.drop_table name).cache = cacheRemove t.cache name := rfl
  have hwf4 : StoreWf s4 :=
    storeWf_setVal _ _ (storeWf_removeKeys _
      (storeWf_dropRangeData _ _ (storeWf_dropRangeData _ _ hwf)))
  have hsub : ∀ k v, (k, some v) ∈ s4 → (k, some v) ∈ t.tx := by
    intro k v h
    rcases mem_setVal _ _ _ _ h with hEq | h2
    · exact absurd hEq (by simp)
    · exact mem_dropRangeData _ _ _ _ _
        (mem_dropRangeData _ _ _ _ _ (mem_removeKeys _ _ _ _ h2))
  have hcolrange : ∀ k, inRangeB (TableCodec.columns_bound name).1
      (TableCodec.columns_bound name).2 k = true → s3.get k = none := by
    intro k hk
    rw [hs3, get_removeKeys]
    by_cases hmem : k ∈ colks
    · simp [hmem]
    · simp only [hmem, if_false]
      cases hget : s2.get k with
      | none => rfl
      | some v =>
        exfalso
        apply hmem
        rw [hcolks]
        exact mem_liveKeysInRange s2 _ _ k v hk hget
  have hR1 : s4.get (rootKey name) = none := by
    rw [hs4]
    exact get_setVal_self _ _ _
  have hs4none : ∀ k, s3.get k = none → s4.get k = none := by
    intro k h
    rw [hs4]
    exact get_setVal_none _ _ _ h
  have hR2 : ∀ cid, cid < BIG → s4.get (colKey name cid) = none := by
    intro cid hcid
    exact hs4none _ (hcolrange _ (colKey_inColumnsRange name cid hcid))
  have hR3 : ∀ iid, iid < BIG → s4.get (idxMetaKey name iid) = none := by
    intro iid _
    refine hs4none _ (get_removeKeys_none _ _ _ ?_)
    rw [hs2]
    exact get_dropRangeData_of_inRange s1 _ _ _ (idxMetaKey_inAllIndexRange name iid)
  have hR4 : ∀ iid vb, iid < BIG → s4.get (idxKeyB name iid vb) = none := by
    intro iid vb hiid
    refine hs4none _ (get_removeKeys_none _ _ _ ?_)
    rw [hs2]
    exact get_dropRangeData_of_inRange s1 _ _ _ (idxKey_inAllIndexRange name iid vb hiid)
  have hR5 : ∀ dv, s4.get (tupleKeyB name (encDV dv)) = none := by
    intro dv
    refine hs4none _ (get_removeKeys_none _ _ _ (get_dropRangeData_none _ _ _ _ ?_))
    rw [hs1]
    exact get_dropRangeData_of_inRange t.tx _ _ _ (tupleKey_inRange name dv)
  have hcolrange4 : ∀ k, inRangeB (TableCodec.columns_bound name).1
      (TableCodec.columns_bound name).2 k = true → s4.get k = none :=
    fun k hk => hs4none k (hcolrange k hk)
  refine ⟨htx ▸ hR1, fun cid h => htx ▸ hR2 cid h, fun iid h => htx ▸ hR3 iid h,
    fun iid vb h => htx ▸ hR4 iid vb h, fun dv => htx ▸ hR5 dv, ?_, ?_⟩
  · -- show_tables no longer lists the table
    intro names hshow hmem
    have hst : (t.drop_table name).show_tables =
        show_tables_events ((rangeEntries s4 TableCodec.root_table_bound.1
          TableCodec.root_table_bound.2).map IterEvent.item) := rfl
    rw [hst] at hshow
    obtain ⟨k, hk⟩ := show_tables_events_mem _ names name hshow hmem
    have hins4 : (k, some (Value.rootV name)) ∈ s4 := (List.mem_filter.1 hk).1
    have hkroot : k = rootKey name :=
      hroot _ (hsub k _ hins4) rfl
    have hlive : s4.get k = some (Value.rootV name) :=
      get_of_mem_wf s4 hwf4 k _ hins4
    rw [hkroot, hR1] at hlive
    exact Option.noConfusion hlive
  · -- a subsequent read fails TableNotFound
    intro bounds π
    have h1 : cacheGet (t.drop_table name).cache name = none := by
      rw [hcache]
      exact cacheGet_remove_self t.cache name
    have hcc : column_collect name (t.drop_table name).tx = .ok [] := by
      rw [htx]
      unfold column_collect iterEvents
      apply colCollectGo_all_tombstone
      intro e he
      have hins4 : e ∈ s4 := (List.mem_filter.1 he).1
      have hk : inRangeB (TableCodec.columns_bound name).1
          (TableCodec.columns_bound name).2 e.1 = true := (List.mem_filter.1 he).2
      cases hov : e.2 with
      | none => rfl
      | some v =>
        exfalso
        have he2 : (e.1, some v) ∈ s4 := by
          rw [← hov]
          exact hins4
        have := get_of_mem_wf s4 hwf4 e.1 (some v) he2
        rw [hcolrange4 e.1 hk] at this
        exact Option.noConfusion this
    have htable : (t.drop_table name).table name = none := by
      unfold KipTransaction.table
      rw [h1, hcc]
      rfl
    simp [KipTransaction.read, htable]

theorem drop_table_removes_table_witness :
    StoreWf txData.tx ∧
    (txData.drop_table "t1").tx.get (rootKey "t1") = none ∧
    (txData.drop_table "t1").read "t1" (none, none) [] = .error .TableNotFound :=
  ⟨by decide,
   (drop_table_removes_table txData "t1" (by decide) (by decide)).1,
   (drop_table_removes_table txData "t1" (by decide) (by decide)).2.2.2.2.2.2
     (none, none) []⟩
